import Mathlib

/-!
Verification of the HugeInt fixed-width big-integer class (radix-2^32 version).

A `HugeInt` is an array of `numDigits = 300` base-2^32 digits stored
little-endian (`digits_[0]` is the units digit); negative values are encoded
by radix complement (HugeInt.h, header comment).  We model the digit array as
a `List ℕ` of length 300 whose entries are below 2^32, and transcribe every
member function and friend operator of `src/HugeInt.cpp` digit loop by digit
loop.  Machine-integer behaviour is made explicit: `uint32_t` stores truncate
with `% base`, `uint64_t` arithmetic never overflows at the places the code
relies on it (checked in comments), and the signed 64-bit carry of Knuth's
division loop is modelled with `ℤ` together with floor division (`Int.fdiv`,
the meaning of an arithmetic right shift) and `Int.emod` (the value stored
back into a `uint32_t`).

Out-of-bounds array accesses have no defined meaning in the C++ source, so
the division routine is modelled as returning `Option`: it returns `none`
exactly when the source would index `digits_` outside `[0, numDigits-1]`
(write of `dividend.digits_[m]` with `m = numDigits`, line 728) or divide by
zero (`n = 0`).  All in-range behaviour is modelled exactly.
-/

set_option maxRecDepth 10000

namespace HugeInt

/-- `numDigits_`: number of base-2^32 digits (HugeInt.h line 111). -/
def numDigits : ℕ := 300

/-- `base_ = 1ULL << 32` (HugeInt.h line 112). -/
def base : ℕ := 2 ^ 32

/-- Well-formed digit array: exactly `numDigits` digits, each a `uint32_t`
value, i.e. below `base`. -/
def WF (l : List ℕ) : Prop := l.length = numDigits ∧ ∀ d ∈ l, d < base

instance decidableWF (l : List ℕ) : Decidable (WF l) :=
  inferInstanceAs (Decidable (l.length = numDigits ∧ ∀ d ∈ l, d < base))

/-- Value of a little-endian digit list: `sum digits[i] * base^i`
(representation described in HugeInt.h lines 9-29). -/
def uval : List ℕ → ℕ
  | [] => 0
  | d :: ds => d + base * uval ds

/-- `(2^32)^N / 2`, the magnitude of the most negative value
(HugeInt.h lines 31-44). -/
def half : ℕ := base ^ numDigits / 2

/-- Signed value under the radix-complement convention: digit patterns with
value at least `(2^32)^N/2` denote `value - (2^32)^N`
(HugeInt.h lines 31-44). -/
def sval (l : List ℕ) : ℤ :=
  if half ≤ uval l then (uval l : ℤ) - base ^ numDigits else (uval l : ℤ)

/-- Reduce an integer modulo `(2^32)^N` into the representable window
`[-(2^32)^N/2, (2^32)^N/2 - 1]`. -/
def wrapRange (z : ℤ) : ℤ := (z + half) % (base : ℤ) ^ numDigits - half

/-- The all-zero digit array: `HugeInt()` default construction
(HugeInt.h line 113, zero-initialised array). -/
def zeroH : List ℕ := List.replicate numDigits 0

/-- Digit loop of `operator+` (HugeInt.cpp lines 488-501): at each slot the
64-bit accumulator holds `carry + a_i + b_i` (at most `2^33 - 1`, no
overflow); the low 32 bits are stored and the high bits carried.  The carry
out of the last slot is discarded. -/
def addLoop : List ℕ → List ℕ → ℕ → List ℕ
  | a :: as, b :: bs, c => (a + b + c) % base :: addLoop as bs ((a + b + c) / base)
  | _, _, _ => []

/-- `operator+(a, b)` (HugeInt.cpp lines 488-501). -/
def add (a b : List ℕ) : List ℕ := addLoop a b 0

/-- `isZero()` (HugeInt.cpp lines 878-883): true iff every digit is zero. -/
def isZero (l : List ℕ) : Bool := l.all (· == 0)

/-- `isNegative()` (HugeInt.cpp lines 900-902): the top digit is at least
`base/2`. -/
def isNegative (l : List ℕ) : Bool := decide (base / 2 ≤ l.getD (numDigits - 1) 0)

/-- Digit loop of `radixComplement()` (HugeInt.cpp lines 996-1008): the
64-bit accumulator holds `carry + (base - 1) - d_i` (the digit is a
`uint32_t`, so `base - 1 - d_i` never underflows); low 32 bits stored, high
bits carried. -/
def compLoop : List ℕ → ℕ → List ℕ
  | [], _ => []
  | d :: ds, c => (c + (base - 1) - d) % base :: compLoop ds ((c + (base - 1) - d) / base)

/-- `radixComplement()` (HugeInt.cpp lines 996-1008): zero is left unchanged,
otherwise complement every digit and add 1 with carry. -/
def radixComplement (l : List ℕ) : List ℕ := if isZero l then l else compLoop l 1

/-- Unary `operator-` (HugeInt.cpp lines 187-191): copy, then radix
complement in place. -/
def neg (l : List ℕ) : List ℕ := radixComplement l

/-- `operator-(a, b) = a + (-b)` (HugeInt.cpp lines 520-522). -/
def sub (a b : List ℕ) : List ℕ := add a (neg b)

/-- `operator==(lhs, rhs)` (HugeInt.cpp lines 837-841): `rhs - lhs` is zero. -/
def beqH (lhs rhs : List ℕ) : Bool := isZero (sub rhs lhs)

/-- `operator<(lhs, rhs)` (HugeInt.cpp lines 847-851): `lhs - rhs` is
negative. -/
def bltH (lhs rhs : List ℕ) : Bool := isNegative (sub lhs rhs)

/-- Digit-extraction loop of `HugeInt(long long int)` (HugeInt.cpp lines
69-88) run for all `numDigits` slots: once `x` is exhausted the remaining
slots receive 0, exactly as the zero-initialised array left them. -/
def ofNatLoop : ℕ → ℕ → List ℕ
  | 0, _ => []
  | n + 1, x => x % base :: ofNatLoop n (x / base)

/-- Magnitude part of `HugeInt(long long int)` for a non-negative value. -/
def ofNatH (x : ℕ) : List ℕ := ofNatLoop numDigits x

/-- `HugeInt(long long int)` (HugeInt.cpp lines 69-88): extract the digits of
`|x|`, then radix-complement if `x` was negative. -/
def ofIntH (x : ℤ) : List ℕ :=
  if x < 0 then radixComplement (ofNatH x.natAbs) else ofNatH x.natAbs

/-- Digit loop of `shortMultiply` (HugeInt.cpp lines 916-927): the 64-bit
accumulator holds `carry + d_i * m` (at most `(2^32-1) + (2^32-1)^2 < 2^64`);
low 32 bits stored, high bits carried. -/
def smulLoop : List ℕ → ℕ → ℕ → List ℕ
  | [], _, _ => []
  | d :: ds, m, c => (c + d * m) % base :: smulLoop ds m ((c + d * m) / base)

/-- `shortMultiply(m)` (HugeInt.cpp lines 916-927). -/
def shortMultiply (a : List ℕ) (m : ℕ) : List ℕ := smulLoop a m 0

/-- `shiftLeftDigits(num)` (HugeInt.cpp lines 972-986): move every digit
`num` places up, dropping digits past slot `numDigits - 1` and zero-filling
from the right; `num = 0` returns the object unchanged. -/
def shiftLeftDigits (a : List ℕ) (k : ℕ) : List ℕ :=
  if k = 0 then a else (List.replicate k 0 ++ a).take numDigits

/-- `operator*(a, b)` (HugeInt.cpp lines 537-547): schoolbook accumulation
`product += shortMultiply(a, b_i) shifted left i digits` for `i = 0 ..
numDigits - 1`. -/
def mul (a b : List ℕ) : List ℕ :=
  (List.range numDigits).foldl
    (fun prod i => add prod (shiftLeftDigits (shortMultiply a (b.getD i 0)) i)) zeroH

/-- Most-significant-first short-division pass shared by `shortDivide`
(HugeInt.cpp lines 943-959) and case 2 of `unsigned_divide` (lines 683-703):
`partial = base * partial + d_i`, emit `partial / v`, keep `partial % v`.
The input list is the digits most significant first; the returned digit list
is most significant first. -/
def sdivLoop : List ℕ → ℕ → ℕ → List ℕ × ℕ
  | [], _, r => ([], r)
  | d :: ds, v, r =>
      let p := base * r + d
      let rest := sdivLoop ds v (p % v)
      (p / v :: rest.1, rest.2)

/-- `shortDivide(v, &rem)` (HugeInt.cpp lines 943-959): one pass over all
`numDigits` digits from most significant to least significant. -/
def shortDivide (a : List ℕ) (v : ℕ) : List ℕ × ℕ :=
  let p := sdivLoop a.reverse v 0
  (p.1.reverse, p.2)

/-- Significant-digit count (HugeInt.cpp lines 655-659): scan down from the
top slot past the zero digits.  Equals the list length minus the length of
its maximal all-zero suffix. -/
def sigLen (l : List ℕ) : ℕ := (l.reverse.dropWhile (· == 0)).length

/-- Normalisation shift count (HugeInt.cpp lines 710-716): double `vn` until
it reaches `base / 2`, counting the shifts.  The loop body runs at most 31
times because `vn` starts at least 1 (it is the top significant digit of the
divisor), so fuel 32 is exact. -/
def shiftsLoop : ℕ → ℕ → ℕ
  | 0, _ => 0
  | f + 1, v => if v < base / 2 then shiftsLoop f (2 * v) + 1 else 0

/-- One digit of the normalisation shift (HugeInt.cpp lines 721-725 and
730-734): `(cur << s) | (prev >> (32 - s))` truncated to 32 bits.  The two
operands occupy disjoint bit ranges (`(cur * 2^s) % base` has its low `s`
bits clear, `prev / 2^(32-s) < 2^s`), so the bitwise or is addition. -/
def normShift (s prev cur : ℕ) : ℕ := (cur * 2 ^ s) % base + prev / 2 ^ (32 - s)

/-- The in-place normalisation loops (HugeInt.cpp lines 721-725, 730-734)
walk the indices downward and therefore always read original digit values;
threading the previous original digit through an ascending pass is the same
computation. -/
def normLoop (s : ℕ) : List ℕ → ℕ → List ℕ
  | [], _ => []
  | x :: xs, prev => normShift s prev x :: normLoop s xs x

/-- The `qhat` refinement loop (HugeInt.cpp lines 758-762): while
`rhat < base` and the two-digit cross-check says the estimate is too big,
decrement `qhat` and add the divisor's top digit back into `rhat`.  Each
iteration increases `rhat` by the normalised top digit (at least `base / 2`),
so the loop body runs at most twice; fuel 4 is more than the loop can use. -/
def refineQhat : ℕ → ℕ → ℕ → ℕ → ℕ → ℕ → ℕ × ℕ
  | 0, _, _, _, qhat, rhat => (qhat, rhat)
  | f + 1, vtop, vsec, udig, qhat, rhat =>
      if rhat < base ∧ qhat * vsec > base * rhat + udig then
        refineQhat f vtop vsec udig (qhat - 1) (rhat + vtop)
      else (qhat, rhat)

/-- Multiply-and-subtract loop (HugeInt.cpp lines 771-784), `cnt` slots
starting at window offset `i`.  `product = uint32(qhat) * v_i` (the source
truncates `qhat` to 32 bits here, line 774); `widedigit` is the signed
64-bit value `u_{k+i} + carry - (product & 0xffffffff)`; the `uint32_t`
store keeps `widedigit mod base` and the next carry is
`(widedigit >> 32) - (product >> 32)` with an arithmetic (floor) shift. -/
def subMulGo (qh32 : ℕ) (v : List ℕ) :
    List ℕ → ℕ → ℕ → ℕ → ℤ → List ℕ × ℤ
  | u, _, _, 0, carry => (u, carry)
  | u, k, i, cnt + 1, carry =>
      let product := qh32 * v.getD i 0
      let wd : ℤ := (u.getD (k + i) 0 : ℤ) + carry - (product % base : ℕ)
      let u' := u.set (k + i) (wd.emod base).toNat
      subMulGo qh32 v u' k (i + 1) cnt (wd.fdiv base - (product / base : ℕ))

/-- Add-back loop of the correction branch (HugeInt.cpp lines 801-807):
`widedigit` accumulates `u_{k+i} + v_i + carry`, all non-negative; the low
32 bits are stored and `widedigit >>= 32` keeps the carry. -/
def addBackGo (v : List ℕ) : List ℕ → ℕ → ℕ → ℕ → ℕ → List ℕ × ℕ
  | u, _, _, 0, wv => (u, wv)
  | u, k, i, cnt + 1, wv =>
      let t := wv + u.getD (k + i) 0 + v.getD i 0
      addBackGo v (u.set (k + i) (t % base)) k (i + 1) cnt (t / base)

/-- One iteration of the main quotient loop of `unsigned_divide`
(HugeInt.cpp lines 740-811) at quotient position `k`, acting on the working
dividend `u` and quotient `q`:

* estimate `qhat` from the top two window digits (lines 741-746),
* clamp once if the estimate is exactly `base` (lines 750-753),
* refine with the two-digit cross-check (lines 758-762),
* multiply-and-subtract `uint32(qhat) * divisor` through the window
  (lines 771-787; both the store `quotient.digits_[k] = qhat`, line 791,
  and the product at line 774 truncate `qhat` to 32 bits),
* on a borrow out of the top window digit, decrement the stored quotient
  digit (a wrapping `uint32_t` decrement, line 800) and add the divisor
  back (lines 801-807), then add the subtract loop's final signed carry
  into the top window digit (line 809, a wrapping `uint32_t` update). -/
def divStep (n : ℕ) (v : List ℕ) (uq : List ℕ × List ℕ) (k : ℕ) :
    List ℕ × List ℕ :=
  let u := uq.1
  let q := uq.2
  let vtop := v.getD (n - 1) 0
  let rhat0 := u.getD (k + n) 0 * base + u.getD (k + n - 1) 0
  let qhat0 := rhat0 / vtop
  let rhat1 := rhat0 % vtop
  let qr := if qhat0 = base then (qhat0 - 1, rhat1 + vtop) else (qhat0, rhat1)
  let qhat := (refineQhat 4 vtop (v.getD (n - 2) 0) (u.getD (k + n - 2) 0) qr.1 qr.2).1
  let qh32 := qhat % base
  let su := subMulGo qh32 v u k 0 n 0
  let u1 := su.1
  let carry := su.2
  let wd : ℤ := (u1.getD (k + n) 0 : ℤ) + carry
  let u2 := u1.set (k + n) (wd.emod base).toNat
  let q1 := q.set k qh32
  if wd < 0 then
    let q2 := q1.set k ((qh32 + (base - 1)) % base)
    let ab := addBackGo v u2 k 0 n 0
    let u4 := ab.1.set (k + n) (((ab.1.getD (k + n) 0 : ℤ) + carry).emod base).toNat
    (u4, q2)
  else (u2, q1)

/-- The main loop of case 3 (HugeInt.cpp line 740): `k` runs from `m - n`
down to 0; the argument of `divLoopGo` is the number of iterations still to
run, so `divLoopGo n v (m - n + 1)` performs them in the source's order. -/
def divLoopGo (n : ℕ) (v : List ℕ) : ℕ → List ℕ × List ℕ → List ℕ × List ℕ
  | 0, uq => uq
  | kk + 1, uq => divLoopGo n v kk (divStep n v uq kk)

/-- `unsigned_divide(a, b, &rem)` (HugeInt.cpp lines 648-831) with the
remainder always produced into a zero-initialised object, which is how every
call site uses it (the routine's own "clear the remainder" statement at
lines 669-671, 695-697 and 815-817 is the no-op comparison
`*remainder == 0LL` and never clears anything, so only a zero-initialised
remainder receives the documented value).

Returns `none` exactly where the source has no defined behaviour:

* `n = 0` (divisor zero): case 2 divides by `divisor.digits_[0] = 0`;
* case 3 with `m = numDigits`: line 728 writes `dividend.digits_[m]`, one
  slot past the end of the 300-digit array.

Case 1 (`m < n`, lines 664-679): quotient 0; the dividend's `m` significant
digits are copied into the zero remainder.
Case 2 (`n = 1`, lines 683-703): short division over the `m` significant
dividend digits; `remainder.digits_[0]` receives the final partial value.
Case 3 (lines 705-830): normalise divisor and dividend by `2^shifts`
(prepending a digit `a_{m-1} >> (32 - shifts)` to the dividend, line 728),
run the quotient loop, then denormalise digits `0 .. n-1` of the working
dividend into the remainder (lines 819-828). -/
def unsigned_divide (a b : List ℕ) : Option (List ℕ × List ℕ) :=
  let n := sigLen b
  let m := sigLen a
  if m < n then
    some (zeroH, a.take m ++ List.replicate (numDigits - m) 0)
  else if n = 0 then none
  else if n < 2 then
    let p := sdivLoop (a.take m).reverse (b.getD 0 0) 0
    some (p.1.reverse ++ List.replicate (numDigits - m) 0,
          p.2 :: List.replicate (numDigits - 1) 0)
  else if numDigits ≤ m then none
  else
    let s := shiftsLoop 32 (b.getD (n - 1) 0)
    let v := normLoop s (b.take n) 0 ++ b.drop n
    let u := normLoop s (a.take m) 0 ++ [a.getD (m - 1) 0 / 2 ^ (32 - s)] ++ a.drop (m + 1)
    let r := divLoopGo n v (m - n + 1) (u, zeroH)
    let uf := r.1
    some (r.2,
          (List.range (n - 1)).map
              (fun i => uf.getD i 0 / 2 ^ s + (uf.getD (i + 1) 0 % 2 ^ s) * 2 ^ (32 - s))
            ++ [uf.getD (n - 1) 0 / 2 ^ s]
            ++ List.replicate (numDigits - n) 0)

/-- `operator/(a, b)` (HugeInt.cpp lines 562-579): reduce to the unsigned
routine on absolute values and restore the quotient's sign from the XOR of
the operand signs. -/
def divOp (a b : List ℕ) : Option (List ℕ) :=
  if bltH a zeroH then
    if bltH b zeroH then (unsigned_divide (neg a) (neg b)).map (fun p => p.1)
    else (unsigned_divide (neg a) b).map (fun p => neg p.1)
  else
    if bltH b zeroH then (unsigned_divide a (neg b)).map (fun p => neg p.1)
    else (unsigned_divide a b).map (fun p => p.1)

/-- `operator%(a, b)` (HugeInt.cpp lines 595-618): the remainder of the
unsigned routine on absolute values, negated when the dividend is
negative. -/
def modOp (a b : List ℕ) : Option (List ℕ) :=
  if bltH a zeroH then
    if bltH b zeroH then (unsigned_divide (neg a) (neg b)).map (fun p => neg p.2)
    else (unsigned_divide (neg a) b).map (fun p => neg p.2)
  else
    if bltH b zeroH then (unsigned_divide a (neg b)).map (fun p => p.2)
    else (unsigned_divide a b).map (fun p => p.2)

/-- `getMinimum()` (HugeInt.cpp lines 411-417): a zero array with
`digits_[numDigits - 1] = base / 2`. -/
def getMinimum : List ℕ := List.replicate (numDigits - 1) 0 ++ [base / 2]

/-- Decimal digits of a machine integer, most significant first, as printed
by `oss << n` in `operator<<` (HugeInt.cpp lines 1060, 1066).  The fuel
`x + 1` strictly exceeds the number of divisions by 10 that can occur. -/
def decCharsGo : ℕ → ℕ → List Char
  | 0, _ => []
  | f + 1, x =>
      if x < 10 then [Char.ofNat (48 + x)]
      else decCharsGo f (x / 10) ++ [Char.ofNat (48 + x % 10)]

/-- Decimal rendering of a natural number. -/
def decChars (x : ℕ) : List Char := decCharsGo (x + 1) x

/-- `std::setw(3)` with fill `'0'` (HugeInt.cpp lines 1063-1066): pad the
decimal digits of a group (a value below 1000) to width 3 on the left. -/
def pad3 (t : ℕ) : List Char :=
  let ds := decChars t
  List.replicate (3 - ds.length) '0' ++ ds

/-- The triple-collecting loop of `operator<<` (HugeInt.cpp lines 1052-1056):
`while (copy != 0) { copy = copy.shortDivide(1000, &rem); triples[i++] = rem; }`.
`operator!=(copy, 0)` is `!isZero(copy - 0)` (lines 843-845 with 837-841).
The source stores into `uint32_t triples[965]` (line 1049-1050:
`int(300 * 3.211) + 2 = 965` slots); fuel 965 mirrors that capacity, and the
loop provably runs at most 964 times for well-formed digits. -/
def collectGo : ℕ → List ℕ → List ℕ → List ℕ
  | 0, _, acc => acc
  | f + 1, copy, acc =>
      if isZero (sub copy zeroH) then acc
      else
        let p := shortDivide copy 1000
        collectGo f p.1 (acc ++ [p.2])

/-- `operator<<` (HugeInt.cpp lines 1028-1070) as a character list: `"0"` for
zero; otherwise an optional leading `'-'`, the most significant thousands
group without padding, then each further group as `','` followed by the
group zero-padded to 3 digits. -/
def renderHuge (x : List ℕ) : List Char :=
  if beqH x zeroH then ['0']
  else
    let sgn : List Char := if bltH x zeroH then ['-'] else []
    let copy := if bltH x zeroH then neg x else x
    let ts := collectGo 965 copy []
    match ts.reverse with
    | [] => sgn
    | h :: rest => sgn ++ decChars h ++ rest.foldl (fun acc t => acc ++ ',' :: pad3 t) []

/-- `is_all_digits` (HugeInt.cpp lines 37-49): false on the empty string,
otherwise every character must satisfy `isdigit`, i.e. have an ASCII code in
`[48, 57]`. -/
def is_all_digits (cs : List Char) : Bool :=
  !cs.isEmpty && cs.all (fun c => 48 ≤ c.toNat && c.toNat ≤ 57)

/-- `HugeInt powerOfTen{1LL}` (HugeInt.cpp line 137). -/
def oneH : List ℕ := ofNatH 1

/-- Accumulation loop of the string constructor (HugeInt.cpp lines 139-144),
processing the decimal digits least significant first:
`theNumber += powerOfTen.shortMultiply(digitValue); powerOfTen =
powerOfTen.shortMultiply(10)`.  The digit value is `uint32(c) - '0'`. -/
def parseLoopGo : List Char → List ℕ × List ℕ → List ℕ
  | [], st => st.1
  | c :: cs, st =>
      parseLoopGo cs (add st.1 (shortMultiply st.2 (c.toNat - 48)), shortMultiply st.2 10)

/-- `HugeInt(const char* const)` (HugeInt.cpp lines 103-153): reject the
empty string; skip a single leading `'+'` or `'-'` (both tests look at
`str[0]`, so at most one applies); reject unless the remaining characters
are one or more decimal digits; accumulate them from the rightmost character
backward; radix-complement if the sign was `'-'`.  `none` models the
`std::invalid_argument` throw. -/
def HugeIntFromString (cs : List Char) : Option (List ℕ) :=
  if cs.length = 0 then none
  else
    let offset : ℕ :=
      (if cs.headD ' ' = '+' then 1 else 0) + (if cs.headD ' ' = '-' then 1 else 0)
    let flagNegative := cs.headD ' ' = '-'
    if is_all_digits (cs.drop offset) then
      let mag := parseLoopGo (cs.drop offset).reverse (zeroH, oneH)
      some (if flagNegative then radixComplement mag else mag)
    else none

/-! Specification-side definitions, used only to state claims: the string
format `[+|-]?[0-9]+` and the integer a decimal string denotes. -/

/-- The claim's format: an optional single leading `'+'` or `'-'` sign
followed by one or more ASCII digits and nothing else. -/
def goodFormat (cs : List Char) : Bool :=
  match cs with
  | [] => false
  | c :: rest => if c = '+' ∨ c = '-' then is_all_digits rest else is_all_digits cs

/-- Value denoted by a string of decimal digits, most significant first. -/
def denotedDigits (cs : List Char) : ℕ :=
  cs.foldl (fun acc c => 10 * acc + (c.toNat - 48)) 0

/-- Integer denoted by a well-formed decimal string with optional sign. -/
def denotedInt (cs : List Char) : ℤ :=
  match cs with
  | [] => 0
  | c :: rest =>
      if c = '-' then -(denotedDigits rest : ℤ)
      else if c = '+' then (denotedDigits rest : ℤ)
      else (denotedDigits cs : ℤ)

/-! Index-range model for the Knuth branch (claim C9).  The digit-array
indices touched by case 3 of `unsigned_divide` depend only on `m`, `n` and
the loop counters, never on the digit values, so they can be transcribed
directly from the loop bounds. -/

/-- Indices of `dividend`, `divisor` and `quotient` slots read or written by
one iteration of the main loop at position `k` (HugeInt.cpp lines 740-810):
the window top reads/writes `k+n`, the estimate reads `k+n-1` and `k+n-2`,
the multiply-subtract and add-back loops touch `k+i` for `i < n`, and the
quotient digit lives at `k`. -/
def stepIndices (n k : ℕ) : List ℕ :=
  (k + n) :: (k + n - 1) :: (k + n - 2) :: k :: (List.range n).map (k + ·)

/-- Indices used by all main-loop iterations `k = cnt - 1, ..., 0`. -/
def allStepIndices (n : ℕ) : ℕ → List ℕ
  | 0 => []
  | k + 1 => stepIndices n k ++ allStepIndices n k

/-- Every digit-array index read or written by case 3 of `unsigned_divide`
(HugeInt.cpp lines 705-830) for significant digit counts `m` (dividend) and
`n` (divisor): divisor normalisation touches `0 .. n-1` (lines 721-725);
line 728 writes `dividend.digits_[m]` reading `digits_[m-1]`; dividend
normalisation touches `0 .. m-1` (lines 730-734); the main loop runs
`k = m-n, ..., 0`; remainder denormalisation reads and writes `0 .. n-1`
(lines 819-828). -/
def case3Indices (m n : ℕ) : List ℕ :=
  m :: (m - 1) :: (List.range n ++ (List.range m ++ (allStepIndices n (m - n + 1) ++ List.range n)))

/-! Concrete inputs used by the counterexamples and bug witnesses. -/

/-- Dividend `2^31 * (2^32)^3 + (2^32 - 1) * (2^32)^2`: digits
`[0, 0, 2^32-1, 2^31]`, four significant digits, non-negative. -/
def aBug : List ℕ := [0, 0, 4294967295, 2147483648] ++ List.replicate 296 0

/-- Divisor `2^31 * (2^32)^2 + (2^32 - 1) * 2^32 + 1`: digits
`[1, 2^32-1, 2^31]`, three significant digits, positive. -/
def bBug : List ℕ := [1, 4294967295, 2147483648] ++ List.replicate 297 0

/-- The remainder digits `unsigned_divide` actually produces for
`aBug / bBug`: value `(2^32 - 1) * (2^32)^2`. -/
def rBug : List ℕ := [0, 0, 4294967295] ++ List.replicate 297 0

/-- A non-negative dividend whose top digit slot (index 299) is nonzero:
value `(2^32)^299`, so `m = 300`. -/
def aOOB : List ℕ := List.replicate 299 0 ++ [1]

/-- The divisor `2^32`: digits `[0, 1]`, two significant digits. -/
def bTwoDigit : List ℕ := 0 :: 1 :: List.replicate 298 0

/-- Most-significant-first value with seed: `foldl (fun r d => base * r + d)`. -/
def hval (l : List ℕ) (r : ℕ) : ℕ := l.foldl (fun acc d => base * acc + d) r

/-! ## Basic facts about digit values -/

theorem base_pos : 0 < base := by norm_num [base]

theorem uval_append (s t : List ℕ) :
    uval (s ++ t) = uval s + base ^ s.length * uval t := by
  induction s with
  | nil => simp [uval]
  | cons d ds ih =>
    simp only [List.cons_append, uval, List.append_eq, ih, List.length_cons, pow_succ]
    ring

theorem uval_replicate_zero (n : ℕ) : uval (List.replicate n 0) = 0 := by
  induction n with
  | zero => rfl
  | succ n ih =>
    rw [List.replicate_succ]
    have h0 : uval (0 :: List.replicate n 0) = 0 + base * uval (List.replicate n 0) := rfl
    rw [h0, ih]
    omega

theorem uval_lt {l : List ℕ} (h : ∀ d ∈ l, d < base) : uval l < base ^ l.length := by
  induction l with
  | nil => simp [uval]
  | cons d ds ih =>
    have hd : d < base := h d (List.mem_cons_self d ds)
    have hds := ih (fun x hx => h x (List.mem_cons_of_mem _ hx))
    have h1 : base * (uval ds + 1) ≤ base * base ^ ds.length := Nat.mul_le_mul_left _ hds
    simp only [uval, List.length_cons, pow_succ]
    nlinarith [h1]

theorem isZero_iff (l : List ℕ) : isZero l = true ↔ uval l = 0 := by
  induction l with
  | nil => simp [isZero, uval]
  | cons d ds ih =>
    simp only [isZero, List.all_cons, Bool.and_eq_true, beq_iff_eq] at *
    constructor
    · rintro ⟨h0, h1⟩
      simp [uval, h0, ih.mp h1]
    · intro h
      simp only [uval] at h
      have hd : d = 0 := by omega
      have hds : base * uval ds = 0 := by omega
      have : uval ds = 0 := by
        rcases Nat.mul_eq_zero.mp hds with h' | h'
        · exact absurd h' (by have := base_pos; omega)
        · exact h'
      exact ⟨hd, ih.mpr this⟩

/-- Core carry-propagation identity: storing the low digit and carrying the
high part into a value known modulo `base ^ l` computes the sum modulo
`base ^ (l + 1)`. -/
theorem mod_carry (s r l : ℕ) (hr : r < base) :
    (base * s + r) % base ^ (l + 1) = base * (s % base ^ l) + r := by
  have h1 : base * s + r = base ^ (l + 1) * (s / base ^ l) + (base * (s % base ^ l) + r) := by
    conv_lhs => rw [← Nat.div_add_mod s (base ^ l)]
    ring
  rw [h1, Nat.mul_add_mod]
  refine Nat.mod_eq_of_lt ?_
  have h2 : s % base ^ l < base ^ l := Nat.mod_lt _ (pow_pos base_pos l)
  have h3 : base * (s % base ^ l + 1) ≤ base * base ^ l := Nat.mul_le_mul_left _ h2
  rw [pow_succ]
  nlinarith [h3]

/-! ## The addition loop -/

theorem addLoop_length : ∀ (a b : List ℕ) (c : ℕ), b.length = a.length →
    (addLoop a b c).length = a.length := by
  intro a
  induction a with
  | nil =>
    intro b c h
    have hb : b = [] := List.eq_nil_of_length_eq_zero (by simpa using h)
    subst hb
    rfl
  | cons x xs ih =>
    intro b c h
    cases b with
    | nil => simp at h
    | cons y ys => simpa [addLoop] using ih ys _ (by simpa using h)

theorem addLoop_bounds : ∀ (a b : List ℕ) (c : ℕ), ∀ d ∈ addLoop a b c, d < base := by
  intro a
  induction a with
  | nil => intro b c d hd; cases b <;> simp [addLoop] at hd
  | cons x xs ih =>
    intro b c d hd
    cases b with
    | nil => simp [addLoop] at hd
    | cons y ys =>
      simp only [addLoop, List.mem_cons] at hd
      rcases hd with h | h
      · exact h ▸ Nat.mod_lt _ base_pos
      · exact ih ys _ d h

theorem addLoop_val : ∀ (a b : List ℕ) (c : ℕ), b.length = a.length →
    uval (addLoop a b c) = (uval a + uval b + c) % base ^ a.length := by
  intro a
  induction a with
  | nil =>
    intro b c h
    have hb : b = [] := List.eq_nil_of_length_eq_zero (by simpa using h)
    subst hb
    simp [addLoop, uval, Nat.mod_one]
  | cons x xs ih =>
    intro b c h
    cases b with
    | nil => simp at h
    | cons y ys =>
      have hys : ys.length = xs.length := by simpa using h
      have key := mod_carry (uval xs + uval ys + (x + y + c) / base) ((x + y + c) % base)
        xs.length (Nat.mod_lt _ base_pos)
      have hxyc := Nat.div_add_mod (x + y + c) base
      simp only [addLoop, uval, List.length_cons, ih ys ((x + y + c) / base) hys, hys]
      rw [Nat.add_comm ((x + y + c) % base)
        (base * ((uval xs + uval ys + (x + y + c) / base) % base ^ xs.length)), ← key]
      congr 1
      have hexp : base * (uval xs + uval ys + (x + y + c) / base)
          = base * uval xs + base * uval ys + base * ((x + y + c) / base) := by ring
      linarith [hxyc, hexp]

theorem add_val {a b : List ℕ} (h : b.length = a.length) :
    uval (add a b) = (uval a + uval b) % base ^ a.length := by
  simpa using addLoop_val a b 0 h

theorem add_length {a b : List ℕ} (h : b.length = a.length) :
    (add a b).length = a.length := addLoop_length a b 0 h

theorem add_WF {a b : List ℕ} (ha : WF a) (hb : WF b) : WF (add a b) := by
  refine ⟨?_, fun d hd => addLoop_bounds a b 0 d hd⟩
  rw [add_length (by rw [ha.1, hb.1])]
  exact ha.1

/-! ## The radix complement -/

theorem compLoop_eq_addLoop : ∀ (a : List ℕ) (c : ℕ), (∀ d ∈ a, d < base) →
    compLoop a c = addLoop (a.map (fun d => base - 1 - d)) (List.replicate a.length 0) c := by
  intro a
  induction a with
  | nil => intro c _; rfl
  | cons d ds ih =>
    intro c h
    have hd : d < base := h d (List.mem_cons_self d ds)
    have hds : ∀ x ∈ ds, x < base := fun x hx => h x (List.mem_cons_of_mem _ hx)
    have harg : c + (base - 1) - d = base - 1 - d + 0 + c := by omega
    simp only [compLoop, List.map_cons, List.length_cons, List.replicate_succ, addLoop, harg]
    rw [ih ((base - 1 - d + 0 + c) / base) hds]

theorem uval_map_compl : ∀ (a : List ℕ), (∀ d ∈ a, d < base) →
    uval (a.map (fun d => base - 1 - d)) + uval a + 1 = base ^ a.length := by
  intro a
  induction a with
  | nil => intro _; simp [uval]
  | cons d ds ih =>
    intro h
    have hd : d < base := h d (List.mem_cons_self d ds)
    have hds := ih (fun x hx => h x (List.mem_cons_of_mem _ hx))
    simp only [List.map_cons, uval, List.length_cons, pow_succ]
    have hexp : base * (uval (ds.map (fun d => base - 1 - d)) + uval ds + 1)
        = base * uval (ds.map (fun d => base - 1 - d)) + base * uval ds + base := by ring
    have h1 : base * (uval (ds.map (fun d => base - 1 - d)) + uval ds + 1)
        = base * base ^ ds.length := by rw [hds]
    have h2 : base - 1 - d + d = base - 1 := by omega
    have h3 : base ^ ds.length * base = base * base ^ ds.length := by ring
    have h4 : base - 1 + 1 = base := by have := base_pos; omega
    linarith [hexp, h1, h2, h3, h4]

theorem radixComplement_val {a : List ℕ} (h : ∀ d ∈ a, d < base) :
    uval (radixComplement a) = (base ^ a.length - uval a) % base ^ a.length := by
  unfold radixComplement
  by_cases hz : isZero a = true
  · rw [if_pos hz]
    have h0 : uval a = 0 := (isZero_iff a).mp hz
    rw [h0, Nat.sub_zero, Nat.mod_self]
  · rw [if_neg hz]
    have hnz : uval a ≠ 0 := fun h0 => hz ((isZero_iff a).mpr h0)
    have hlt : uval a < base ^ a.length := uval_lt h
    rw [compLoop_eq_addLoop a 1 h,
      addLoop_val _ _ 1 (by simp), uval_replicate_zero]
    have hc := uval_map_compl a h
    have hval : uval (a.map (fun d => base - 1 - d)) + 0 + 1 = base ^ a.length - uval a := by
      omega
    rw [hval, List.length_map]

theorem compLoop_length (a : List ℕ) (c : ℕ) : (compLoop a c).length = a.length := by
  induction a generalizing c with
  | nil => rfl
  | cons d ds ih => simp [compLoop, ih]

theorem compLoop_bounds (a : List ℕ) (c : ℕ) : ∀ d ∈ compLoop a c, d < base := by
  induction a generalizing c with
  | nil => intro d hd; simp [compLoop] at hd
  | cons x xs ih =>
    intro d hd
    simp only [compLoop, List.mem_cons] at hd
    rcases hd with h | h
    · exact h ▸ Nat.mod_lt _ base_pos
    · exact ih _ d h

theorem radixComplement_WF {a : List ℕ} (ha : WF a) : WF (radixComplement a) := by
  unfold radixComplement
  by_cases hz : isZero a = true
  · rw [if_pos hz]; exact ha
  · rw [if_neg hz]
    exact ⟨by rw [compLoop_length, ha.1], compLoop_bounds a 1⟩

theorem neg_val {a : List ℕ} (h : ∀ d ∈ a, d < base) :
    uval (neg a) = (base ^ a.length - uval a) % base ^ a.length := radixComplement_val h

/-! ## Subtraction, equality test, order test -/

theorem sub_val {a b : List ℕ} (ha : WF a) (hb : WF b) :
    uval (sub a b) = (uval a + (base ^ numDigits - uval b)) % base ^ numDigits := by
  have hblt : uval b < base ^ numDigits := hb.1 ▸ uval_lt hb.2
  have hlen : (neg b).length = a.length := by
    unfold neg
    rw [(radixComplement_WF hb).1, ha.1]
  have hnegv : uval (neg b) = (base ^ numDigits - uval b) % base ^ numDigits := by
    have h := neg_val hb.2
    rwa [hb.1] at h
  unfold sub
  rw [add_val hlen, hnegv, ha.1]
  by_cases h0 : uval b = 0
  · rw [h0, Nat.sub_zero, Nat.mod_self, Nat.add_zero, Nat.add_mod_right]
  · rw [Nat.mod_eq_of_lt (a := base ^ numDigits - uval b) (by omega)]

theorem sub_WF {a b : List ℕ} (ha : WF a) (hb : WF b) : WF (sub a b) :=
  add_WF ha (radixComplement_WF hb)

theorem uval_eq_zero_mod {x : ℕ} (hx : x < base ^ numDigits)
    {y : ℕ} (hy : y < base ^ numDigits) :
    (x + (base ^ numDigits - y)) % base ^ numDigits = 0 ↔ x = y := by
  constructor
  · intro h
    have hd : base ^ numDigits ∣ x + (base ^ numDigits - y) := Nat.dvd_of_mod_eq_zero h
    rcases hd with ⟨k, hk⟩
    have hk2 : k < 2 := by
      by_contra hge
      push_neg at hge
      have h2 : base ^ numDigits * 2 ≤ base ^ numDigits * k := Nat.mul_le_mul_left _ hge
      omega
    interval_cases k <;> omega
  · intro h
    subst h
    have hfull : x + (base ^ numDigits - x) = base ^ numDigits := by omega
    rw [hfull, Nat.mod_self]

theorem beqH_iff {a b : List ℕ} (ha : WF a) (hb : WF b) :
    beqH a b = true ↔ uval a = uval b := by
  unfold beqH
  rw [isZero_iff, sub_val hb ha,
    uval_eq_zero_mod (hb.1 ▸ uval_lt hb.2) (ha.1 ▸ uval_lt ha.2)]
  exact ⟨fun h => h.symm, fun h => h.symm⟩

/-! ## Digit lists with equal values are equal -/

theorem uval_inj : ∀ (a b : List ℕ), a.length = b.length →
    (∀ d ∈ a, d < base) → (∀ d ∈ b, d < base) → uval a = uval b → a = b := by
  intro a
  induction a with
  | nil =>
    intro b hlen _ _ _
    exact (List.eq_nil_of_length_eq_zero (by simpa using hlen.symm)).symm
  | cons x xs ih =>
    intro b hlen hax hbx hv
    cases b with
    | nil => simp at hlen
    | cons y ys =>
      have hx : x < base := hax x (List.mem_cons_self _ _)
      have hy : y < base := hbx y (List.mem_cons_self _ _)
      simp only [uval] at hv
      have hxy : x = y := by
        have h1 : (x + base * uval xs) % base = x := by
          rw [Nat.add_mul_mod_self_left, Nat.mod_eq_of_lt hx]
        have h2 : (y + base * uval ys) % base = y := by
          rw [Nat.add_mul_mod_self_left, Nat.mod_eq_of_lt hy]
        rw [← h1, ← h2, hv]
      subst hxy
      have hvs : uval xs = uval ys := by
        have hb0 := base_pos
        have : base * uval xs = base * uval ys := by omega
        exact Nat.eq_of_mul_eq_mul_left hb0 this
      rw [ih ys (by simpa using hlen) (fun d hd => hax d (List.mem_cons_of_mem _ hd))
        (fun d hd => hbx d (List.mem_cons_of_mem _ hd)) hvs]

/-! ## Sign predicate and signed values -/

theorem half_pos : 0 < half := by norm_num [half, base, numDigits]

theorem two_half : 2 * half = base ^ numDigits := by norm_num [half, base, numDigits]

theorem half_eq : half = base / 2 * base ^ (numDigits - 1) := by
  norm_num [half, base, numDigits]

theorem uval_getD_top {l : List ℕ} (h : l.length = numDigits) :
    uval l = uval (l.take (numDigits - 1)) + base ^ (numDigits - 1) * l.getD (numDigits - 1) 0 := by
  have hsplit : l = l.take (numDigits - 1) ++ l.drop (numDigits - 1) :=
    (List.take_append_drop _ l).symm
  have hlen : (l.take (numDigits - 1)).length = numDigits - 1 := by
    rw [List.length_take, h]
    omega
  have hdrop : l.drop (numDigits - 1) = [l.getD (numDigits - 1) 0] := by
    have hl : (l.drop (numDigits - 1)).length = 1 := by
      rw [List.length_drop, h]
      norm_num [numDigits]
    have hget : l.getD (numDigits - 1) 0 = (l.drop (numDigits - 1)).getD 0 0 := by
      rw [List.getD_eq_getElem?_getD, List.getD_eq_getElem?_getD, List.getElem?_drop,
        Nat.add_zero]
    cases hd : l.drop (numDigits - 1) with
    | nil => rw [hd] at hl; simp at hl
    | cons z zs =>
      cases zs with
      | nil =>
        rw [hget, hd]
        rfl
      | cons w ws => rw [hd] at hl; simp at hl
  conv_lhs => rw [hsplit]
  rw [uval_append, hlen, hdrop]
  simp [uval]

theorem isNegative_iff {l : List ℕ} (h : WF l) :
    isNegative l = true ↔ half ≤ uval l := by
  have htop := uval_getD_top h.1
  have htake : (l.take (numDigits - 1)).length = numDigits - 1 := by
    rw [List.length_take, h.1]
    omega
  have hlow : uval (l.take (numDigits - 1)) < base ^ (numDigits - 1) := by
    have hv := uval_lt (l := l.take (numDigits - 1))
      (fun d hd => h.2 d (List.take_subset _ _ hd))
    rwa [htake] at hv
  have htopb : l.getD (numDigits - 1) 0 < base := by
    have hmem : numDigits - 1 < l.length := by rw [h.1]; norm_num [numDigits]
    rw [List.getD_eq_getElem l 0 hmem]
    exact h.2 _ (List.getElem_mem hmem)
  unfold isNegative
  rw [decide_eq_true_iff, half_eq]
  constructor
  · intro hge
    have h1 : base / 2 * base ^ (numDigits - 1) ≤ base ^ (numDigits - 1) * l.getD (numDigits - 1) 0 := by
      calc base / 2 * base ^ (numDigits - 1) ≤ l.getD (numDigits - 1) 0 * base ^ (numDigits - 1) :=
            Nat.mul_le_mul_right _ hge
        _ = base ^ (numDigits - 1) * l.getD (numDigits - 1) 0 := Nat.mul_comm _ _
    omega
  · intro hge
    by_contra hlt
    push_neg at hlt
    have h2 : l.getD (numDigits - 1) 0 + 1 ≤ base / 2 := hlt
    have h3 : base ^ (numDigits - 1) * (l.getD (numDigits - 1) 0 + 1)
        ≤ base ^ (numDigits - 1) * (base / 2) := Nat.mul_le_mul_left _ h2
    have h4 : base ^ (numDigits - 1) * (base / 2) = base / 2 * base ^ (numDigits - 1) :=
      Nat.mul_comm _ _
    have h5 : base ^ (numDigits - 1) * (l.getD (numDigits - 1) 0 + 1)
        = base ^ (numDigits - 1) * l.getD (numDigits - 1) 0 + base ^ (numDigits - 1) := by ring
    omega

/-! ## Signed values and the representable window -/

theorem uval_lt_M {l : List ℕ} (h : WF l) : uval l < base ^ numDigits :=
  h.1 ▸ uval_lt h.2

theorem two_half_int : 2 * (half : ℤ) = (base : ℤ) ^ numDigits := by
  have h := two_half
  exact_mod_cast h

theorem sval_bounds {l : List ℕ} (h : WF l) : -(half : ℤ) ≤ sval l ∧ sval l < half := by
  have hu : uval l < base ^ numDigits := uval_lt_M h
  have hu' : (uval l : ℤ) < (base : ℤ) ^ numDigits := by exact_mod_cast hu
  have h2 := two_half_int
  have h0 : (0 : ℤ) ≤ (uval l : ℤ) := Int.ofNat_nonneg _
  unfold sval
  by_cases hc : half ≤ uval l
  · rw [if_pos hc]
    have hc' : (half : ℤ) ≤ (uval l : ℤ) := by exact_mod_cast hc
    omega
  · rw [if_neg hc]
    push_neg at hc
    have hc' : (uval l : ℤ) < (half : ℤ) := by exact_mod_cast hc
    omega

theorem sval_modEq (l : List ℕ) :
    sval l ≡ (uval l : ℤ) [ZMOD (base : ℤ) ^ numDigits] := by
  unfold sval
  by_cases hc : half ≤ uval l
  · rw [if_pos hc]
    exact Int.ModEq.symm (Int.modEq_iff_dvd.mpr ⟨-1, by ring⟩)
  · rw [if_neg hc]

theorem wrapRange_modEq (z : ℤ) :
    wrapRange z ≡ z [ZMOD (base : ℤ) ^ numDigits] := by
  unfold wrapRange
  have h1 : (z + half) % ((base : ℤ) ^ numDigits) ≡ z + half [ZMOD (base : ℤ) ^ numDigits] :=
    Int.mod_modEq _ _
  have h2 := Int.ModEq.sub_right (half : ℤ) h1
  simpa using h2

theorem wrapRange_bounds (z : ℤ) :
    -(half : ℤ) ≤ wrapRange z ∧ wrapRange z < half := by
  have hM : (0 : ℤ) < (base : ℤ) ^ numDigits :=
    pow_pos (by exact_mod_cast base_pos) _
  have h2 := two_half_int
  unfold wrapRange
  have hlb := Int.emod_nonneg (z + half) (by omega : ((base : ℤ) ^ numDigits) ≠ 0)
  have hub := Int.emod_lt_of_pos (z + half) hM
  omega

theorem eq_of_modEq_of_window {x y : ℤ}
    (hmod : x ≡ y [ZMOD (base : ℤ) ^ numDigits])
    (hx1 : -(half : ℤ) ≤ x) (hx2 : x < half)
    (hy1 : -(half : ℤ) ≤ y) (hy2 : y < half) : x = y := by
  have h2 := two_half_int
  have hdvd : (base : ℤ) ^ numDigits ∣ y - x := Int.ModEq.dvd hmod
  have habs : |y - x| < (base : ℤ) ^ numDigits := by
    rw [abs_lt]
    omega
  have h0 := Int.eq_zero_of_abs_lt_dvd hdvd habs
  omega

theorem sval_eq_wrapRange {x : List ℕ} (h : WF x) {z : ℤ}
    (hz : (uval x : ℤ) ≡ z [ZMOD (base : ℤ) ^ numDigits]) : sval x = wrapRange z := by
  have h1 := (sval_modEq x).trans hz
  have h2 := wrapRange_modEq z
  exact eq_of_modEq_of_window (h1.trans h2.symm) (sval_bounds h).1 (sval_bounds h).2
    (wrapRange_bounds z).1 (wrapRange_bounds z).2

theorem wrapRange_eq_self {z : ℤ} (h1 : -(half : ℤ) ≤ z) (h2 : z < half) :
    wrapRange z = z :=
  eq_of_modEq_of_window (wrapRange_modEq z) (wrapRange_bounds z).1 (wrapRange_bounds z).2 h1 h2

theorem sval_neg_iff {l : List ℕ} (h : WF l) : sval l < 0 ↔ half ≤ uval l := by
  have hu : uval l < base ^ numDigits := uval_lt_M h
  have hu' : (uval l : ℤ) < (base : ℤ) ^ numDigits := by exact_mod_cast hu
  have h0 : (0 : ℤ) ≤ (uval l : ℤ) := Int.ofNat_nonneg _
  unfold sval
  by_cases hc : half ≤ uval l
  · rw [if_pos hc]
    have hc' : (half : ℤ) ≤ (uval l : ℤ) := by exact_mod_cast hc
    simp only [hc, iff_true]
    omega
  · rw [if_neg hc]
    simp only [hc, iff_false, not_lt]
    omega

theorem sub_modEq {a b : List ℕ} (ha : WF a) (hb : WF b) :
    (uval (sub a b) : ℤ) ≡ (uval a : ℤ) - uval b [ZMOD (base : ℤ) ^ numDigits] := by
  have hbu : uval b ≤ base ^ numDigits := le_of_lt (uval_lt_M hb)
  have hv := sub_val ha hb
  have hcast : (uval (sub a b) : ℤ)
      = ((uval a : ℤ) + ((base : ℤ) ^ numDigits - (uval b : ℤ))) % ((base : ℤ) ^ numDigits) := by
    rw [hv]
    push_cast [hbu]
    ring_nf
  rw [hcast]
  calc ((uval a : ℤ) + ((base : ℤ) ^ numDigits - (uval b : ℤ))) % ((base : ℤ) ^ numDigits)
      ≡ (uval a : ℤ) + ((base : ℤ) ^ numDigits - (uval b : ℤ))
        [ZMOD (base : ℤ) ^ numDigits] := Int.mod_modEq _ _
    _ ≡ (uval a : ℤ) - uval b [ZMOD (base : ℤ) ^ numDigits] :=
        Int.ModEq.symm (Int.modEq_iff_dvd.mpr ⟨1, by ring⟩)

theorem sub_sval {a b : List ℕ} (ha : WF a) (hb : WF b) :
    sval (sub a b) = wrapRange (sval a - sval b) := by
  refine sval_eq_wrapRange (sub_WF ha hb) ?_
  have h1 := sub_modEq ha hb
  have h2 := sval_modEq a
  have h3 := sval_modEq b
  exact h1.trans (Int.ModEq.sub h2 h3).symm

theorem bltH_iff {a b : List ℕ} (ha : WF a) (hb : WF b) :
    bltH a b = true ↔ sval (sub a b) < 0 := by
  unfold bltH
  rw [isNegative_iff (sub_WF ha hb), sval_neg_iff (sub_WF ha hb)]

theorem bltH_iff_sval {a b : List ℕ} (ha : WF a) (hb : WF b)
    (hw : |sval a - sval b| < (half : ℤ)) :
    bltH a b = true ↔ sval a < sval b := by
  rw [bltH_iff ha hb, sub_sval ha hb, wrapRange_eq_self (by rw [abs_lt] at hw; omega)
    (by rw [abs_lt] at hw; omega)]
  omega

/-! ## Short multiplication -/

theorem smulLoop_length (a : List ℕ) (m c : ℕ) : (smulLoop a m c).length = a.length := by
  induction a generalizing c with
  | nil => rfl
  | cons d ds ih => simp [smulLoop, ih]

theorem smulLoop_bounds (a : List ℕ) (m c : ℕ) : ∀ d ∈ smulLoop a m c, d < base := by
  induction a generalizing c with
  | nil => intro d hd; simp [smulLoop] at hd
  | cons x xs ih =>
    intro d hd
    simp only [smulLoop, List.mem_cons] at hd
    rcases hd with h | h
    · exact h ▸ Nat.mod_lt _ base_pos
    · exact ih _ d h

theorem smulLoop_val : ∀ (a : List ℕ) (m c : ℕ),
    uval (smulLoop a m c) = (uval a * m + c) % base ^ a.length := by
  intro a
  induction a with
  | nil => intro m c; simp [smulLoop, uval, Nat.mod_one]
  | cons x xs ih =>
    intro m c
    have key := mod_carry (uval xs * m + (c + x * m) / base) ((c + x * m) % base)
      xs.length (Nat.mod_lt _ base_pos)
    have hxc := Nat.div_add_mod (c + x * m) base
    simp only [smulLoop, uval, List.length_cons, ih m ((c + x * m) / base)]
    rw [Nat.add_comm ((c + x * m) % base)
      (base * ((uval xs * m + (c + x * m) / base) % base ^ xs.length)), ← key]
    congr 1
    have hexp : base * (uval xs * m + (c + x * m) / base)
        = base * (uval xs * m) + base * ((c + x * m) / base) := by ring
    have hgoal : (x + base * uval xs) * m = x * m + base * (uval xs * m) := by ring
    linarith [hxc, hexp, hgoal]

theorem shortMultiply_val (a : List ℕ) (m : ℕ) :
    uval (shortMultiply a m) = uval a * m % base ^ a.length := by
  simpa using smulLoop_val a m 0

theorem shortMultiply_WF {a : List ℕ} (ha : WF a) (m : ℕ) : WF (shortMultiply a m) :=
  ⟨by rw [shortMultiply, smulLoop_length, ha.1], fun d hd => smulLoop_bounds a m 0 d hd⟩

/-! ## Short division -/

theorem hval_nil (r : ℕ) : hval [] r = r := rfl

theorem hval_cons (d : ℕ) (ds : List ℕ) (r : ℕ) :
    hval (d :: ds) r = hval ds (base * r + d) := rfl

theorem hval_seed : ∀ (l : List ℕ) (r : ℕ), hval l r = r * base ^ l.length + hval l 0 := by
  intro l
  induction l with
  | nil => intro r; simp [hval]
  | cons d ds ih =>
    intro r
    rw [hval_cons, hval_cons, ih (base * r + d), ih (base * 0 + d)]
    simp only [List.length_cons, pow_succ]
    ring

theorem uval_eq_hval_reverse (l : List ℕ) : uval l = hval l.reverse 0 := by
  induction l with
  | nil => rfl
  | cons d ds ih =>
    have happ : hval (ds.reverse ++ [d]) 0 = base * hval ds.reverse 0 + d := by
      unfold hval
      rw [List.foldl_append]
      rfl
    simp only [uval, List.reverse_cons, happ, ih]
    ring

theorem sdivLoop_spec : ∀ (l : List ℕ) (v r : ℕ), 0 < v → r < v → (∀ d ∈ l, d < base) →
    hval l r = hval (sdivLoop l v r).1 0 * v + (sdivLoop l v r).2
      ∧ (sdivLoop l v r).2 < v
      ∧ (sdivLoop l v r).1.length = l.length
      ∧ (∀ q ∈ (sdivLoop l v r).1, q < base) := by
  intro l
  induction l with
  | nil =>
    intro v r hv hr _
    exact ⟨by simp [sdivLoop, hval], hr, rfl, by simp [sdivLoop]⟩
  | cons d ds ih =>
    intro v r hv hr hb
    have hd : d < base := hb d (List.mem_cons_self _ _)
    have hds : ∀ x ∈ ds, x < base := fun x hx => hb x (List.mem_cons_of_mem _ hx)
    have hrec := ih v ((base * r + d) % v) hv (Nat.mod_lt _ hv) hds
    have hIH := hrec.1
    have hlen := hrec.2.2.1
    have hq0 : (base * r + d) / v < base := by
      have h1 : base * (r + 1) ≤ base * v := Nat.mul_le_mul_left _ hr
      have h2 : base * (r + 1) = base * r + base := by ring
      have h3 : v * base = base * v := Nat.mul_comm _ _
      exact Nat.div_lt_of_lt_mul (by omega)
    have hsplit : v * ((base * r + d) / v) + (base * r + d) % v = base * r + d :=
      Nat.div_add_mod (base * r + d) v
    have e2 : hval ds ((base * r + d) % v)
        = ((base * r + d) % v) * base ^ ds.length + hval ds 0 := hval_seed ds _
    simp only [sdivLoop]
    refine ⟨?_, hrec.2.1, by simpa using hlen, ?_⟩
    · rw [hval_cons, hval_cons, hval_seed (sdivLoop ds v ((base * r + d) % v)).1
        (base * 0 + (base * r + d) / v), hlen]
      calc hval ds (base * r + d)
          = hval ds (v * ((base * r + d) / v) + (base * r + d) % v) := by rw [hsplit]
        _ = (v * ((base * r + d) / v) + (base * r + d) % v) * base ^ ds.length + hval ds 0 :=
            hval_seed ds _
        _ = (base * r + d) / v * base ^ ds.length * v
              + (((base * r + d) % v) * base ^ ds.length + hval ds 0) := by ring
        _ = (base * r + d) / v * base ^ ds.length * v
              + (hval (sdivLoop ds v ((base * r + d) % v)).1 0 * v
                 + (sdivLoop ds v ((base * r + d) % v)).2) := by rw [← e2, hIH]
        _ = ((base * 0 + (base * r + d) / v) * base ^ ds.length
              + hval (sdivLoop ds v ((base * r + d) % v)).1 0) * v
              + (sdivLoop ds v ((base * r + d) % v)).2 := by ring
    · intro q hq
      simp only [List.mem_cons] at hq
      rcases hq with h | h
      · omega
      · exact hrec.2.2.2 q h

theorem shortDivide_eq (a : List ℕ) (v : ℕ) :
    shortDivide a v = ((sdivLoop a.reverse v 0).1.reverse, (sdivLoop a.reverse v 0).2) := rfl

theorem shortDivide_spec {a : List ℕ} (ha : WF a) {v : ℕ} (hv : 0 < v) :
    uval (shortDivide a v).1 = uval a / v ∧ (shortDivide a v).2 = uval a % v
      ∧ WF (shortDivide a v).1 := by
  have hrev : ∀ d ∈ a.reverse, d < base := fun d hd => ha.2 d (List.mem_reverse.mp hd)
  obtain ⟨hvalid, hrem, hlen, hbnd⟩ := sdivLoop_spec a.reverse v 0 hv hv hrev
  have hq : uval (sdivLoop a.reverse v 0).1.reverse = hval (sdivLoop a.reverse v 0).1 0 := by
    rw [uval_eq_hval_reverse, List.reverse_reverse]
  have hua : uval a = hval a.reverse 0 := uval_eq_hval_reverse a
  have hkey : (sdivLoop a.reverse v 0).2 + v * uval (sdivLoop a.reverse v 0).1.reverse
      = uval a := by
    rw [hq, hua, hvalid]
    ring
  have huniq := (Nat.div_mod_unique hv).mpr ⟨hkey, hrem⟩
  rw [shortDivide_eq]
  refine ⟨huniq.1.symm, huniq.2.symm, ?_, ?_⟩
  · show (sdivLoop a.reverse v 0).1.reverse.length = numDigits
    rw [List.length_reverse, hlen, List.length_reverse, ha.1]
  · intro d hd
    exact hbnd d (List.mem_reverse.mp hd)

/-! ## Claim C7: subtraction-based equality is digit-wise equality -/

/-- Claim C7: for all well-formed HugeInt digit arrays `a` and `b`, the
equality operator (computed as `isZero (b - a)`, HugeInt.cpp lines 837-841)
returns true exactly when the two digit arrays are element-wise equal. -/
theorem C7_eq_iff_digits (a b : List ℕ) (ha : WF a) (hb : WF b) :
    beqH a b = true ↔ a = b := by
  rw [beqH_iff ha hb]
  constructor
  · intro h
    exact uval_inj a b (by rw [ha.1, hb.1]) ha.2 hb.2 h
  · intro h
    rw [h]

/-- Witness for C7 at the concrete digit arrays of 7 and 7. -/
theorem C7_witness : beqH (ofNatH 7) (ofNatH 7) = true ↔ ofNatH 7 = ofNatH 7 :=
  C7_eq_iff_digits (ofNatH 7) (ofNatH 7) (by decide) (by decide)

/-! ## Claim C8: the radix complement is an involution -/

/-- Claim C8: `radixComplement` applied twice restores every well-formed
value, and leaves the zero array unchanged (its own complement). -/
theorem C8_involution (x : List ℕ) (hx : WF x) :
    radixComplement (radixComplement x) = x ∧ radixComplement zeroH = zeroH := by
  constructor
  · have hWF1 : WF (radixComplement x) := radixComplement_WF hx
    have hWF2 : WF (radixComplement (radixComplement x)) := radixComplement_WF hWF1
    have hu : uval x < base ^ numDigits := uval_lt_M hx
    have h1 : uval (radixComplement x) = (base ^ numDigits - uval x) % base ^ numDigits := by
      have h := radixComplement_val hx.2
      rwa [hx.1] at h
    have h2 : uval (radixComplement (radixComplement x))
        = (base ^ numDigits - uval (radixComplement x)) % base ^ numDigits := by
      have h := radixComplement_val hWF1.2
      rwa [hWF1.1] at h
    refine uval_inj _ _ (by rw [hWF2.1, hx.1]) hWF2.2 hx.2 ?_
    rw [h2, h1]
    rcases Nat.eq_zero_or_pos (uval x) with h0 | h0
    · rw [h0, Nat.sub_zero, Nat.mod_self, Nat.sub_zero, Nat.mod_self]
    · have hin : (base ^ numDigits - uval x) % base ^ numDigits
          = base ^ numDigits - uval x := Nat.mod_eq_of_lt (by omega)
      rw [hin]
      have hout : base ^ numDigits - (base ^ numDigits - uval x) = uval x := by omega
      rw [hout, Nat.mod_eq_of_lt hu]
  · unfold radixComplement
    rw [if_pos (by decide)]

/-- Witness for C8 at the concrete digit array of 12345. -/
theorem C8_witness :
    radixComplement (radixComplement (ofNatH 12345)) = ofNatH 12345
      ∧ radixComplement zeroH = zeroH :=
  C8_involution (ofNatH 12345) (by decide)

/-! ## Claim C10: negating the minimum gives the minimum -/

/-- Claim C10: unary minus (copy + radix complement, HugeInt.cpp lines
187-191) maps `getMinimum()` to itself, both as digit arrays and under the
class's own equality operator. -/
theorem C10_neg_min :
    neg getMinimum = getMinimum ∧ beqH (neg getMinimum) getMinimum = true := by
  constructor
  · decide
  · decide

/-! ## Claim C4: addition wraps modulo (2^32)^N into the representable range -/

/-- Claim C4: for all well-formed digit arrays, `operator+` produces the
well-formed array representing `value a + value b` reduced modulo
`(2^32)^N` into `[-(2^32)^N/2, (2^32)^N/2 - 1]`; the final carry is
discarded and no overflow is signalled (the function is total). -/
theorem C4_add_wraps (a b : List ℕ) (ha : WF a) (hb : WF b) :
    sval (add a b) = wrapRange (sval a + sval b) ∧ WF (add a b) := by
  refine ⟨?_, add_WF ha hb⟩
  refine sval_eq_wrapRange (add_WF ha hb) ?_
  have h1 : uval (add a b) = (uval a + uval b) % base ^ numDigits := by
    have h := add_val (a := a) (b := b) (by rw [ha.1, hb.1])
    rwa [ha.1] at h
  have h2 : (uval (add a b) : ℤ) = ((uval a : ℤ) + uval b) % (base : ℤ) ^ numDigits := by
    rw [h1]
    push_cast
    ring_nf
  rw [h2]
  calc ((uval a : ℤ) + uval b) % (base : ℤ) ^ numDigits
      ≡ (uval a : ℤ) + uval b [ZMOD (base : ℤ) ^ numDigits] := Int.mod_modEq _ _
    _ ≡ sval a + sval b [ZMOD (base : ℤ) ^ numDigits] :=
        Int.ModEq.add (sval_modEq a).symm (sval_modEq b).symm

/-- Witness for C4 at `getMinimum + getMinimum` (a wrapping sum). -/
theorem C4_witness :
    sval (add getMinimum getMinimum) = wrapRange (sval getMinimum + sval getMinimum)
      ∧ WF (add getMinimum getMinimum) :=
  C4_add_wraps getMinimum getMinimum (by decide) (by decide)

/-! ## Claim C6: order versus sign of the difference -/

/-- Claim C6 counterexample: at `a = getMinimum`, `b = 0` the claim "`a < b`
iff `b - a` is strictly positive" fails: `getMinimum < 0` holds, yet
`0 - getMinimum` is negative (it is `getMinimum` again) and nonzero; and the
order is not a strict weak order since `0 < getMinimum` holds as well. -/
theorem C6_counterexample :
    bltH getMinimum zeroH = true ∧ bltH zeroH getMinimum = true
      ∧ isNegative (sub zeroH getMinimum) = true
      ∧ isZero (sub zeroH getMinimum) = false := by
  refine ⟨by decide, by decide, by decide, by decide⟩

/-- Claim C6 (amended): for well-formed digit arrays whose value difference
does not wrap (|value a − value b| below `(2^32)^N/2`), `a < b` holds iff
`value a < value b`, and iff `b - a` is strictly positive; on such pairs the
order therefore coincides with the integer order, a strict weak order. -/
theorem C6_lt_iff (a b : List ℕ) (ha : WF a) (hb : WF b)
    (hw : |sval a - sval b| < (half : ℤ)) :
    (bltH a b = true ↔ sval a < sval b)
      ∧ (bltH a b = true ↔ 0 < sval (sub b a)) := by
  have h1 := bltH_iff_sval ha hb hw
  refine ⟨h1, ?_⟩
  have h2 : sval (sub b a) = sval b - sval a := by
    rw [sub_sval hb ha]
    exact wrapRange_eq_self (by rw [abs_lt] at hw; omega) (by rw [abs_lt] at hw; omega)
  rw [h1, h2]
  omega

/-- Witness for C6 at the concrete digit arrays of 3 and 5. -/
theorem C6_witness :
    (bltH (ofNatH 3) (ofNatH 5) = true ↔ sval (ofNatH 3) < sval (ofNatH 5))
      ∧ (bltH (ofNatH 3) (ofNatH 5) = true ↔ 0 < sval (sub (ofNatH 5) (ofNatH 3))) :=
  C6_lt_iff (ofNatH 3) (ofNatH 5) (by decide) (by decide) (by decide)

/-! ## Claim C9: index ranges of the Knuth branch -/

theorem stepIndices_bound (n k j : ℕ) (h : j ∈ stepIndices n k) : j ≤ k + n := by
  simp only [stepIndices, List.mem_cons, List.mem_map, List.mem_range] at h
  rcases h with h | h | h | h | ⟨i, hi, hij⟩ <;> omega

theorem allStepIndices_bound : ∀ (K n j : ℕ), j ∈ allStepIndices n K → j < K + n := by
  intro K
  induction K with
  | zero =>
    intro n j h
    simp [allStepIndices] at h
  | succ k ih =>
    intro n j h
    rcases List.mem_append.mp h with h1 | h2
    · have := stepIndices_bound n k j h1
      omega
    · have := ih n j h2
      omega

/-- Claim C9 (amended): whenever the dividend has at most `numDigits - 1`
significant digits, every digit-array index read or written by the Knuth
branch of `unsigned_divide` lies in `[0, numDigits - 1]`; the claim as
stated fails when the dividend's top slot is nonzero (`m = numDigits`),
where line 728 writes index `numDigits = 300`. -/
theorem C9_indices_in_range (a b : List ℕ)
    (hn : 2 ≤ sigLen b) (hm : sigLen b ≤ sigLen a) (hmax : sigLen a ≤ numDigits - 1) :
    (case3Indices (sigLen a) (sigLen b)).all (fun j => decide (j < numDigits)) = true := by
  rw [List.all_eq_true]
  intro j hj
  rw [decide_eq_true_iff]
  have hN : 1 ≤ numDigits := by norm_num [numDigits]
  simp only [case3Indices, List.mem_cons] at hj
  rcases hj with h | h | hj
  · omega
  · omega
  rcases List.mem_append.mp hj with h | hj
  · rw [List.mem_range] at h
    omega
  rcases List.mem_append.mp hj with h | hj
  · rw [List.mem_range] at h
    omega
  rcases List.mem_append.mp hj with h | h
  · have hb := allStepIndices_bound (sigLen a - sigLen b + 1) (sigLen b) j h
    omega
  · rw [List.mem_range] at h
    omega

/-- Claim C9 counterexample: for the dividend `(2^32)^299` (top slot
nonzero, `m = 300`) and divisor `2^32` (`n = 2`), the Knuth branch writes
`dividend.digits_[300]`, outside `[0, 299]`; the model accordingly refuses
with `none`. -/
theorem C9_counterexample :
    2 ≤ sigLen bTwoDigit ∧ sigLen bTwoDigit ≤ sigLen aOOB
      ∧ sigLen aOOB = numDigits
      ∧ numDigits ∈ case3Indices (sigLen aOOB) (sigLen bTwoDigit)
      ∧ ¬ numDigits ≤ numDigits - 1
      ∧ unsigned_divide aOOB bTwoDigit = none := by
  refine ⟨by decide, by decide, by decide, by decide, by decide, by decide⟩

/-- Witness for C9 at a four-digit dividend and the two-digit divisor. -/
theorem C9_witness :
    (case3Indices (sigLen aBug) (sigLen bTwoDigit)).all
      (fun j => decide (j < numDigits)) = true :=
  C9_indices_in_range aBug bTwoDigit (by decide) (by decide) (by decide)

/-! ## Claims C1 and C2: the lost quotient digit

In the estimate-refinement step (HugeInt.cpp lines 750-762) the clamp
handles only `qhat == base` (once, before the loop) and the loop's
cross-check omits Knuth's `qhat >= base` test, so `qhat` can leave the
refinement still equal to `base`; the stores at lines 774 and 791 then
truncate it to the 32-bit value 0: the step subtracts nothing, the borrow
correction never fires, and the quotient digit is recorded as 0 instead of
`base - 1`.  `aBug / bBug` reaches exactly this state at `k = 0`. -/

/-- Claim C1: the contract documented for `unsigned_divide` (HugeInt.cpp
lines 620-631: `a = q*b + r` with `0 <= r < b` for `a >= 0 < b`) fails at
`aBug`, `bBug`: the routine returns quotient 0 and remainder
`(2^32-1)*(2^32)^2`, which exceeds the divisor, and `q*b + r` does not give
back the dividend. -/
theorem C1_lost_quotient_digit :
    0 ≤ sval aBug ∧ 0 < sval bBug
      ∧ unsigned_divide aBug bBug = some (zeroH, rBug)
      ∧ uval zeroH * uval bBug + uval rBug ≠ uval aBug
      ∧ ¬ uval rBug < uval bBug := by
  refine ⟨by decide, by decide, by decide, by decide, by decide⟩

/-- Claim C2: the division identity `(a / b) * b + (a % b) == a` (evaluated
with the class's own operators) fails at `aBug`, `bBug`, although both
operands are positive and minuscule compared to the representable limit
(`a < 2^128`, `b < 2^96`, limit `(2^32)^300 / 2`). -/
theorem C2_division_identity_fails :
    0 ≤ sval aBug ∧ 0 < sval bBug
      ∧ sval aBug < 2 ^ 128 ∧ sval bBug < 2 ^ 96
      ∧ divOp aBug bBug = some zeroH
      ∧ modOp aBug bBug = some rBug
      ∧ beqH (add (mul zeroH bBug) rBug) aBug = false := by
  refine ⟨by decide, by decide, by decide, by decide, by decide, by decide, by decide⟩

/-! ## Parsing decimal strings (claim C5) -/

theorem WF_zeroH : WF zeroH := by decide

theorem uval_zeroH : uval zeroH = 0 := uval_replicate_zero numDigits

theorem WF_oneH : WF oneH := by decide

theorem uval_oneH : uval oneH = 1 := by decide

theorem natModEq_to_int {a b : ℕ} (h : a ≡ b [MOD base ^ numDigits]) :
    (a : ℤ) ≡ (b : ℤ) [ZMOD (base : ℤ) ^ numDigits] := by
  have h2 : ((a % base ^ numDigits : ℕ) : ℤ) = ((b % base ^ numDigits : ℕ) : ℤ) := by
    have h3 : a % base ^ numDigits = b % base ^ numDigits := h
    exact_mod_cast h3
  show (a : ℤ) % ((base : ℤ) ^ numDigits) = (b : ℤ) % ((base : ℤ) ^ numDigits)
  push_cast at h2
  exact h2

theorem denotedDigits_append (xs : List Char) (c : Char) :
    denotedDigits (xs ++ [c]) = 10 * denotedDigits xs + (c.toNat - 48) := by
  unfold denotedDigits
  rw [List.foldl_append]
  rfl

theorem parseLoopGo_spec : ∀ (ds : List Char) (num pow : List ℕ), WF num → WF pow →
    WF (parseLoopGo ds (num, pow))
      ∧ uval (parseLoopGo ds (num, pow))
          ≡ uval num + uval pow * denotedDigits ds.reverse [MOD base ^ numDigits] := by
  intro ds
  induction ds with
  | nil =>
    intro num pow hn _
    refine ⟨hn, ?_⟩
    simp only [parseLoopGo, List.reverse_nil, denotedDigits, List.foldl_nil, Nat.mul_zero,
      Nat.add_zero]
    exact Nat.ModEq.refl _
  | cons c cs ih =>
    intro num pow hn hp
    have hsm : WF (shortMultiply pow (c.toNat - 48)) := shortMultiply_WF hp _
    have hnum' : WF (add num (shortMultiply pow (c.toNat - 48))) := add_WF hn hsm
    have hpow' : WF (shortMultiply pow 10) := shortMultiply_WF hp _
    obtain ⟨hWF, hmod⟩ := ih (add num (shortMultiply pow (c.toNat - 48)))
      (shortMultiply pow 10) hnum' hpow'
    refine ⟨hWF, ?_⟩
    have h1 : uval (add num (shortMultiply pow (c.toNat - 48)))
        ≡ uval num + uval pow * (c.toNat - 48) [MOD base ^ numDigits] := by
      have ha := add_val (a := num) (b := shortMultiply pow (c.toNat - 48))
        (by rw [hn.1, hsm.1])
      rw [hn.1] at ha
      have hs := shortMultiply_val pow (c.toNat - 48)
      rw [hp.1] at hs
      calc uval (add num (shortMultiply pow (c.toNat - 48)))
          ≡ uval num + uval (shortMultiply pow (c.toNat - 48)) [MOD base ^ numDigits] := by
            rw [ha]
            exact Nat.mod_modEq _ _
        _ ≡ uval num + uval pow * (c.toNat - 48) [MOD base ^ numDigits] := by
            refine Nat.ModEq.add_left _ ?_
            rw [hs]
            exact Nat.mod_modEq _ _
    have h2 : uval (shortMultiply pow 10) ≡ uval pow * 10 [MOD base ^ numDigits] := by
      have hs := shortMultiply_val pow 10
      rw [hp.1] at hs
      rw [hs]
      exact Nat.mod_modEq _ _
    have h3 : uval (parseLoopGo (c :: cs) (num, pow))
        ≡ (uval num + uval pow * (c.toNat - 48))
          + (uval pow * 10) * denotedDigits cs.reverse [MOD base ^ numDigits] := by
      have hstep : parseLoopGo (c :: cs) (num, pow)
          = parseLoopGo cs (add num (shortMultiply pow (c.toNat - 48)), shortMultiply pow 10) :=
        rfl
      rw [hstep]
      exact hmod.trans (Nat.ModEq.add h1 (Nat.ModEq.mul_right _ h2))
    have h4 : denotedDigits ((c :: cs).reverse)
        = 10 * denotedDigits cs.reverse + (c.toNat - 48) := by
      rw [List.reverse_cons, denotedDigits_append]
    refine h3.trans ?_
    rw [h4]
    have hr : (uval num + uval pow * (c.toNat - 48)) + (uval pow * 10) * denotedDigits cs.reverse
        = uval num + uval pow * (10 * denotedDigits cs.reverse + (c.toNat - 48)) := by ring
    rw [hr]

theorem parse_cons_plus (rest : List Char) :
    HugeIntFromString ('+' :: rest)
      = if is_all_digits rest then some (parseLoopGo rest.reverse (zeroH, oneH)) else none :=
  rfl

theorem parse_cons_minus (rest : List Char) :
    HugeIntFromString ('-' :: rest)
      = if is_all_digits rest
        then some (radixComplement (parseLoopGo rest.reverse (zeroH, oneH))) else none :=
  rfl

theorem parse_cons_other {c : Char} (hp : c ≠ '+') (hm : c ≠ '-') (rest : List Char) :
    HugeIntFromString (c :: rest)
      = if is_all_digits (c :: rest)
        then some (parseLoopGo (c :: rest).reverse (zeroH, oneH)) else none := by
  unfold HugeIntFromString
  rw [if_neg (by simp)]
  simp only [List.headD_cons, if_neg hp, if_neg hm, Nat.add_zero, List.drop_zero]

theorem goodFormat_cons (c : Char) (rest : List Char) :
    goodFormat (c :: rest)
      = if c = '+' ∨ c = '-' then is_all_digits rest else is_all_digits (c :: rest) := rfl

theorem parse_none_iff (cs : List Char) :
    HugeIntFromString cs = none ↔ goodFormat cs = false := by
  cases cs with
  | nil => simp [HugeIntFromString, goodFormat]
  | cons c rest =>
    by_cases hplus : c = '+'
    · subst hplus
      rw [parse_cons_plus, goodFormat_cons, if_pos (Or.inl rfl)]
      cases hd : is_all_digits rest <;> simp [hd]
    · by_cases hminus : c = '-'
      · subst hminus
        rw [parse_cons_minus, goodFormat_cons, if_pos (Or.inr rfl)]
        cases hd : is_all_digits rest <;> simp [hd]
      · have hgf : goodFormat (c :: rest) = is_all_digits (c :: rest) := by
          rw [goodFormat_cons, if_neg (by simp [hplus, hminus])]
        rw [parse_cons_other hplus hminus, hgf]
        cases hd : is_all_digits (c :: rest) <;> simp [hd]

theorem parse_good (cs : List Char) (h : goodFormat cs = true) :
    ∃ v, HugeIntFromString cs = some v ∧ WF v ∧ sval v = wrapRange (denotedInt cs) := by
  have hmagWF : ∀ ds : List Char, WF (parseLoopGo ds.reverse (zeroH, oneH)) :=
    fun ds => (parseLoopGo_spec ds.reverse zeroH oneH WF_zeroH WF_oneH).1
  have hmagval : ∀ ds : List Char,
      uval (parseLoopGo ds.reverse (zeroH, oneH))
        ≡ denotedDigits ds [MOD base ^ numDigits] := by
    intro ds
    have hm := (parseLoopGo_spec ds.reverse zeroH oneH WF_zeroH WF_oneH).2
    rw [uval_zeroH, uval_oneH, List.reverse_reverse] at hm
    simpa using hm
  have hmagsval : ∀ ds : List Char,
      sval (parseLoopGo ds.reverse (zeroH, oneH)) = wrapRange (denotedDigits ds) :=
    fun ds => sval_eq_wrapRange (hmagWF ds) (natModEq_to_int (hmagval ds))
  have hnegsval : ∀ ds : List Char,
      sval (radixComplement (parseLoopGo ds.reverse (zeroH, oneH)))
        = wrapRange (-(denotedDigits ds : ℤ)) := by
    intro ds
    refine sval_eq_wrapRange (radixComplement_WF (hmagWF ds)) ?_
    have hW := hmagWF ds
    have hlt : uval (parseLoopGo ds.reverse (zeroH, oneH)) < base ^ numDigits := uval_lt_M hW
    have hc : uval (radixComplement (parseLoopGo ds.reverse (zeroH, oneH)))
        = (base ^ numDigits - uval (parseLoopGo ds.reverse (zeroH, oneH)))
            % base ^ numDigits := by
      have hcv := radixComplement_val hW.2
      rwa [hW.1] at hcv
    have hcast : (uval (radixComplement (parseLoopGo ds.reverse (zeroH, oneH))) : ℤ)
        = ((base : ℤ) ^ numDigits - uval (parseLoopGo ds.reverse (zeroH, oneH)))
            % ((base : ℤ) ^ numDigits) := by
      rw [hc]
      push_cast [le_of_lt hlt]
      ring_nf
    rw [hcast]
    calc ((base : ℤ) ^ numDigits - uval (parseLoopGo ds.reverse (zeroH, oneH)))
            % ((base : ℤ) ^ numDigits)
        ≡ (base : ℤ) ^ numDigits - uval (parseLoopGo ds.reverse (zeroH, oneH))
          [ZMOD (base : ℤ) ^ numDigits] := Int.mod_modEq _ _
      _ ≡ 0 - (uval (parseLoopGo ds.reverse (zeroH, oneH)) : ℤ)
          [ZMOD (base : ℤ) ^ numDigits] :=
          Int.ModEq.sub_right _ (Int.modEq_zero_iff_dvd.mpr dvd_rfl)
      _ ≡ 0 - (denotedDigits ds : ℤ) [ZMOD (base : ℤ) ^ numDigits] :=
          Int.ModEq.sub_left _ (natModEq_to_int (hmagval ds))
      _ = -(denotedDigits ds : ℤ) := by ring
  cases cs with
  | nil => simp [goodFormat] at h
  | cons c rest =>
    by_cases hplus : c = '+'
    · subst hplus
      rw [goodFormat_cons, if_pos (Or.inl rfl)] at h
      refine ⟨parseLoopGo rest.reverse (zeroH, oneH), ?_, hmagWF rest, ?_⟩
      · rw [parse_cons_plus, if_pos h]
      · rw [hmagsval rest]
        rfl
    · by_cases hminus : c = '-'
      · subst hminus
        rw [goodFormat_cons, if_pos (Or.inr rfl)] at h
        refine ⟨radixComplement (parseLoopGo rest.reverse (zeroH, oneH)), ?_,
          radixComplement_WF (hmagWF rest), ?_⟩
        · rw [parse_cons_minus, if_pos h]
        · rw [hnegsval rest]
          rfl
      · rw [goodFormat_cons, if_neg (by simp [hplus, hminus])] at h
        refine ⟨parseLoopGo (c :: rest).reverse (zeroH, oneH), ?_,
          hmagWF (c :: rest), ?_⟩
        · rw [parse_cons_other hplus hminus, if_pos h]
        · rw [hmagsval (c :: rest)]
          have hden : denotedInt (c :: rest) = (denotedDigits (c :: rest) : ℤ) := by
            simp [denotedInt, hplus, hminus]
          rw [hden]

/-- Claim C5 (amended): construction from a decimal string fails with the
invalid-format error exactly on strings not matching `[+|-]?[0-9]+` (the
empty string, a non-digit after the optional single leading sign, or a sign
anywhere but the leading position — in particular `""`, `"12a3"` and
`"--5"` all fail); every matching string succeeds, and the constructed
value is the denoted value reduced modulo `(2^32)^N` into the representable
range — equal to the denoted value exactly when that value is
representable. -/
theorem C5_string_construction (cs : List Char) :
    ((HugeIntFromString cs).isNone ↔ goodFormat cs = false)
      ∧ ∀ v, HugeIntFromString cs = some v → WF v ∧ sval v = wrapRange (denotedInt cs) := by
  constructor
  · rw [Option.isNone_iff_eq_none]
    exact parse_none_iff cs
  · intro v hv
    have hgood : goodFormat cs = true := by
      by_contra hbad
      have hfalse : goodFormat cs = false := by
        cases hgf : goodFormat cs
        · rfl
        · exact absurd hgf hbad
      rw [← parse_none_iff cs] at hfalse
      rw [hv] at hfalse
      exact Option.noConfusion hfalse
    obtain ⟨w, hw, hwWF, hwval⟩ := parse_good cs hgood
    rw [hv] at hw
    obtain rfl := Option.some.inj hw
    exact ⟨hwWF, hwval⟩

/-- Witness for C5 at the failing inputs named by the claim and at `"-42"`. -/
theorem C5_witness :
    ((HugeIntFromString []).isNone ↔ goodFormat [] = false)
      ∧ ((HugeIntFromString ('1' :: '2' :: 'a' :: '3' :: [])).isNone
          ↔ goodFormat ('1' :: '2' :: 'a' :: '3' :: []) = false)
      ∧ ((HugeIntFromString ('-' :: '-' :: '5' :: [])).isNone
          ↔ goodFormat ('-' :: '-' :: '5' :: []) = false)
      ∧ ∀ v, HugeIntFromString ('-' :: '4' :: '2' :: []) = some v →
          WF v ∧ sval v = wrapRange (denotedInt ('-' :: '4' :: '2' :: [])) :=
  ⟨(C5_string_construction []).1, (C5_string_construction _).1,
    (C5_string_construction _).1, (C5_string_construction _).2⟩

theorem denotedDigits_one_replicate_zero (k : ℕ) :
    denotedDigits ('1' :: List.replicate k '0') = 10 ^ k := by
  have hgen : ∀ (n : ℕ) (acc : ℕ),
      List.foldl (fun acc c => 10 * acc + (c.toNat - 48)) acc (List.replicate n '0')
        = acc * 10 ^ n := by
    intro n
    induction n with
    | zero => intro acc; simp
    | succ m ih =>
      intro acc
      rw [List.replicate_succ, List.foldl_cons, ih]
      have hc : ('0' : Char).toNat - 48 = 0 := by decide
      rw [hc]
      ring
  unfold denotedDigits
  rw [List.foldl_cons, hgen]
  have h1 : (10 * 0 + (('1' : Char).toNat - 48)) = 1 := by decide
  rw [h1, one_mul]

/-- Claim C5 counterexample: the claim "every string matching `[+|-]?[0-9]+`
succeeds with the denoted value" is false: the 2891-character string
`"1000...0"` denotes `10^2890`, which exceeds the representable maximum
`(2^32)^300/2 - 1`, so the constructed value (which wraps silently) cannot
equal it. -/
theorem C5_counterexample :
    ¬ ∀ cs : List Char, goodFormat cs = true →
        ∀ v, HugeIntFromString cs = some v → sval v = denotedInt cs := by
  intro hall
  have hgood : goodFormat ('1' :: List.replicate 2890 '0') = true := by decide
  obtain ⟨v, hv, hWF, hval⟩ := parse_good ('1' :: List.replicate 2890 '0') hgood
  have heq := hall ('1' :: List.replicate 2890 '0') hgood v hv
  have hden : denotedInt ('1' :: List.replicate 2890 '0')
      = ((denotedDigits ('1' :: List.replicate 2890 '0') : ℕ) : ℤ) := rfl
  have hbig : (half : ℤ) ≤ denotedInt ('1' :: List.replicate 2890 '0') := by
    rw [hden, denotedDigits_one_replicate_zero]
    have hle : half ≤ 10 ^ 2890 := by decide
    exact_mod_cast hle
  have hsmall := (sval_bounds hWF).2
  rw [heq] at hsmall
  omega

/-! ## Rendering to decimal and the round trip (claim C3) -/

theorem mag_WF (ds : List Char) : WF (parseLoopGo ds.reverse (zeroH, oneH)) :=
  (parseLoopGo_spec ds.reverse zeroH oneH WF_zeroH WF_oneH).1

theorem mag_val (ds : List Char) :
    uval (parseLoopGo ds.reverse (zeroH, oneH)) ≡ denotedDigits ds [MOD base ^ numDigits] := by
  have hm := (parseLoopGo_spec ds.reverse zeroH oneH WF_zeroH WF_oneH).2
  rw [uval_zeroH, uval_oneH, List.reverse_reverse] at hm
  simpa using hm

theorem sval_zeroH : sval zeroH = 0 := by
  unfold sval
  rw [uval_zeroH, if_neg (by have := half_pos; omega)]
  rfl

theorem bltH_zeroH_iff {x : List ℕ} (hx : WF x) : bltH x zeroH = true ↔ sval x < 0 := by
  rw [bltH_iff hx WF_zeroH, sub_sval hx WF_zeroH, sval_zeroH, sub_zero,
    wrapRange_eq_self (sval_bounds hx).1 (sval_bounds hx).2]

theorem beqH_zeroH_iff {x : List ℕ} (hx : WF x) : beqH x zeroH = true ↔ uval x = 0 := by
  rw [beqH_iff hx WF_zeroH, uval_zeroH]

theorem isZero_sub_zeroH {x : List ℕ} (hx : WF x) :
    isZero (sub x zeroH) = true ↔ uval x = 0 := by
  rw [isZero_iff, sub_val hx WF_zeroH, uval_zeroH, Nat.sub_zero, Nat.add_mod_right,
    Nat.mod_eq_of_lt (uval_lt_M hx)]

theorem sval_nonneg_uval {x : List ℕ} (hx : WF x) (h : 0 ≤ sval x) :
    (uval x : ℤ) = sval x := by
  have hM := uval_lt_M hx
  unfold sval at *
  by_cases hc : half ≤ uval x
  · rw [if_pos hc] at h
    have hu' : (uval x : ℤ) < (base : ℤ) ^ numDigits := by exact_mod_cast hM
    omega
  · rw [if_neg hc]

theorem uval_neg_of_neg {x : List ℕ} (hx : WF x) (h : sval x < 0) :
    (uval (neg x) : ℤ) = -(sval x) := by
  have hM := uval_lt_M hx
  have h1 : uval (neg x) = (base ^ numDigits - uval x) % base ^ numDigits := by
    have hv := neg_val hx.2
    rwa [hx.1] at hv
  have h2 : half ≤ uval x := (sval_neg_iff hx).mp h
  have h3 : (base ^ numDigits - uval x) % base ^ numDigits = base ^ numDigits - uval x :=
    Nat.mod_eq_of_lt (by have := half_pos; omega)
  have h4 : sval x = (uval x : ℤ) - (base : ℤ) ^ numDigits := by
    unfold sval
    rw [if_pos h2]
  rw [h1, h3, h4]
  push_cast [le_of_lt hM]
  ring

theorem decCharsGo_eq (g x : ℕ) :
    decCharsGo (g + 1) x
      = if x < 10 then [Char.ofNat (48 + x)]
        else decCharsGo g (x / 10) ++ [Char.ofNat (48 + x % 10)] := rfl

theorem decCharsGo_spec : ∀ (f x : ℕ), x < f →
    decCharsGo f x ≠ []
      ∧ (∀ c ∈ decCharsGo f x, 48 ≤ c.toNat ∧ c.toNat ≤ 57)
      ∧ denotedDigits (decCharsGo f x) = x := by
  intro f
  induction f with
  | zero => intro x h; omega
  | succ g ih =>
    intro x hx
    by_cases h10 : x < 10
    · rw [decCharsGo_eq, if_pos h10]
      refine ⟨by simp, ?_, ?_⟩
      · intro c hc
        have hc' : c = Char.ofNat (48 + x) := by simpa using hc
        subst hc'
        interval_cases x <;> decide
      · interval_cases x <;> decide
    · push_neg at h10
      have hd1 : x / 10 * 10 ≤ x := Nat.div_mul_le_self x 10
      have hd2 : 1 ≤ x / 10 := by
        have := Nat.div_le_div_right (c := 10) h10
        simpa using this
      have hdiv : x / 10 < g := by omega
      obtain ⟨hne, hchars, hval⟩ := ih (x / 10) hdiv
      rw [decCharsGo_eq, if_neg (by omega)]
      have hm : x % 10 < 10 := Nat.mod_lt _ (by norm_num)
      have htn : (Char.ofNat (48 + x % 10)).toNat = 48 + x % 10 := by
        set r := x % 10 with hr
        clear_value r
        interval_cases r <;> decide
      refine ⟨by simp, ?_, ?_⟩
      · intro c hc
        rcases List.mem_append.mp hc with h | h
        · exact hchars c h
        · have hc' : c = Char.ofNat (48 + x % 10) := by simpa using h
          subst hc'
          omega
      · rw [denotedDigits_append, hval, htn]
        have hdm := Nat.div_add_mod x 10
        omega

theorem decChars_spec (u : ℕ) :
    decChars u ≠ []
      ∧ (∀ c ∈ decChars u, 48 ≤ c.toNat ∧ c.toNat ≤ 57)
      ∧ denotedDigits (decChars u) = u :=
  decCharsGo_spec (u + 1) u (Nat.lt_succ_self u)

theorem decChars_all_digits (u : ℕ) : is_all_digits (decChars u) = true := by
  obtain ⟨hne, hchars, _⟩ := decChars_spec u
  unfold is_all_digits
  rw [Bool.and_eq_true]
  constructor
  · cases hdc : decChars u with
    | nil => exact absurd hdc hne
    | cons c cs' => simp
  · rw [List.all_eq_true]
    intro d hd
    have hdb := hchars d hd
    simp only [Bool.and_eq_true, decide_eq_true_iff]
    omega

theorem mag_decChars_val (u : ℕ) (hu : u < base ^ numDigits) :
    uval (parseLoopGo (decChars u).reverse (zeroH, oneH)) = u := by
  have hmod := mag_val (decChars u)
  rw [(decChars_spec u).2.2] at hmod
  have hlt := uval_lt_M (mag_WF (decChars u))
  have heq : uval (parseLoopGo (decChars u).reverse (zeroH, oneH)) % base ^ numDigits
      = u % base ^ numDigits := hmod
  rwa [Nat.mod_eq_of_lt hlt, Nat.mod_eq_of_lt hu] at heq

theorem parse_decChars (u : ℕ) :
    HugeIntFromString (decChars u)
      = some (parseLoopGo (decChars u).reverse (zeroH, oneH)) := by
  obtain ⟨hne, hchars, _⟩ := decChars_spec u
  cases hdc : decChars u with
  | nil => exact absurd hdc hne
  | cons c cs' =>
    have hcmem : c ∈ decChars u := by
      rw [hdc]
      exact List.mem_cons_self _ _
    have hcb := hchars c hcmem
    have hp : c ≠ '+' := by
      intro hcp
      rw [hcp] at hcb
      revert hcb
      decide
    have hm : c ≠ '-' := by
      intro hcp
      rw [hcp] at hcb
      revert hcb
      decide
    have hdig : is_all_digits (c :: cs') = true := by
      rw [← hdc]
      exact decChars_all_digits u
    rw [parse_cons_other hp hm, if_pos hdig]

theorem parse_minus_decChars (u : ℕ) :
    HugeIntFromString ('-' :: decChars u)
      = some (radixComplement (parseLoopGo (decChars u).reverse (zeroH, oneH))) := by
  rw [parse_cons_minus, if_pos (decChars_all_digits u)]

theorem collectGo_step (f : ℕ) (copy acc : List ℕ) :
    collectGo (f + 1) copy acc
      = if isZero (sub copy zeroH) then acc
        else collectGo f (shortDivide copy 1000).1 (acc ++ [(shortDivide copy 1000).2]) := rfl

theorem collect_small {copy : List ℕ} (hc : WF copy) (h1 : 1 ≤ uval copy)
    (h2 : uval copy ≤ 999) : collectGo 965 copy [] = [uval copy] := by
  have hnz : isZero (sub copy zeroH) = false := by
    cases hz : isZero (sub copy zeroH)
    · rfl
    · have := (isZero_sub_zeroH hc).mp hz
      omega
  obtain ⟨hq, hr, hqWF⟩ := shortDivide_spec hc (v := 1000) (by norm_num)
  have hq0 : uval (shortDivide copy 1000).1 = 0 := by
    rw [hq]
    exact Nat.div_eq_of_lt (by omega)
  have hr0 : (shortDivide copy 1000).2 = uval copy := by
    rw [hr]
    exact Nat.mod_eq_of_lt (by omega)
  have hz2 : isZero (sub (shortDivide copy 1000).1 zeroH) = true :=
    (isZero_sub_zeroH hqWF).mpr hq0
  have h965 : (965 : ℕ) = 964 + 1 := rfl
  have h964 : (964 : ℕ) = 963 + 1 := rfl
  rw [h965, collectGo_step, if_neg (by rw [hnz]; exact Bool.false_ne_true), h964,
    collectGo_step, if_pos hz2, hr0, List.nil_append]

theorem render_small_pos {x : List ℕ} (hx : WF x) (h0 : 0 < sval x)
    (h999 : sval x ≤ 999) : renderHuge x = decChars (uval x) := by
  have hvu : (uval x : ℤ) = sval x := sval_nonneg_uval hx (le_of_lt h0)
  have h1 : 1 ≤ uval x := by omega
  have h2 : uval x ≤ 999 := by omega
  have hbeq : beqH x zeroH = false := by
    cases hb : beqH x zeroH
    · rfl
    · have := (beqH_zeroH_iff hx).mp hb
      omega
  have hblt : bltH x zeroH = false := by
    cases hb : bltH x zeroH
    · rfl
    · have := (bltH_zeroH_iff hx).mp hb
      omega
  have hcol := collect_small hx h1 h2
  unfold renderHuge
  rw [hbeq, hblt]
  simp only [Bool.false_eq_true, if_false, hcol, List.reverse_cons, List.reverse_nil,
    List.nil_append, List.foldl_nil, List.append_nil]

theorem sval_neg_uval_eq {x : List ℕ} (hx : WF x) (h : sval x < 0) :
    (uval x : ℤ) = sval x + (base : ℤ) ^ numDigits := by
  have h2 := (sval_neg_iff hx).mp h
  unfold sval
  rw [if_pos h2]
  ring

theorem render_small_neg {x : List ℕ} (hx : WF x) (h0 : sval x < 0)
    (h999 : -999 ≤ sval x) : renderHuge x = '-' :: decChars (uval (neg x)) := by
  have hvu : (uval (neg x) : ℤ) = -(sval x) := uval_neg_of_neg hx h0
  have hnWF : WF (neg x) := radixComplement_WF hx
  have h1 : 1 ≤ uval (neg x) := by omega
  have h2 : uval (neg x) ≤ 999 := by omega
  have hbeq : beqH x zeroH = false := by
    cases hb : beqH x zeroH
    · rfl
    · exfalso
      have h3 := (beqH_zeroH_iff hx).mp hb
      have h4 : sval x = 0 := by
        unfold sval
        rw [h3, if_neg (by have := half_pos; omega)]
        rfl
      omega
  have hblt : bltH x zeroH = true := (bltH_zeroH_iff hx).mpr h0
  have hcol := collect_small hnWF h1 h2
  unfold renderHuge
  rw [hbeq, hblt]
  simp only [Bool.false_eq_true, if_false, if_true, hcol, List.reverse_cons,
    List.reverse_nil, List.nil_append, List.foldl_nil, List.append_nil, List.cons_append]

/-- Claim C3 (amended): the decimal round trip `parse(render(x)) = x` holds
exactly for the values rendered without the thousands separator, i.e. for
`|value x| ≤ 999`; for larger magnitudes `operator<<` inserts `','`
separators (HugeInt.cpp line 1066) which the string constructor rejects as
invalid-format. -/
theorem C3_roundtrip_small (x : List ℕ) (hx : WF x) (hs : |sval x| ≤ 999) :
    HugeIntFromString (renderHuge x) = some x := by
  rw [abs_le] at hs
  rcases lt_trichotomy (sval x) 0 with hneg | hzero | hpos
  · have hrender := render_small_neg hx hneg hs.1
    rw [hrender, parse_minus_decChars]
    congr 1
    have hu : (uval (neg x) : ℤ) = -(sval x) := uval_neg_of_neg hx hneg
    have hnWF : WF (neg x) := radixComplement_WF hx
    have humax : uval (neg x) < base ^ numDigits := uval_lt_M hnWF
    have hmagv := mag_decChars_val (uval (neg x)) humax
    have hmWF := mag_WF (decChars (uval (neg x)))
    have hcompWF := radixComplement_WF hmWF
    refine uval_inj _ _ (by rw [hcompWF.1, hx.1]) hcompWF.2 hx.2 ?_
    have hcv : uval (radixComplement
          (parseLoopGo (decChars (uval (neg x))).reverse (zeroH, oneH)))
        = (base ^ numDigits
            - uval (parseLoopGo (decChars (uval (neg x))).reverse (zeroH, oneH)))
          % base ^ numDigits := by
      have hrc := radixComplement_val hmWF.2
      rwa [hmWF.1] at hrc
    rw [hcv, hmagv]
    have h1 : 1 ≤ uval (neg x) := by omega
    rw [Nat.mod_eq_of_lt (by omega)]
    have hfin : ((base ^ numDigits - uval (neg x) : ℕ) : ℤ) = (uval x : ℤ) := by
      push_cast [le_of_lt humax]
      rw [hu, sval_neg_uval_eq hx hneg]
      ring
    exact_mod_cast hfin
  · have hu0 : uval x = 0 := by
      have hcast := sval_nonneg_uval hx (le_of_eq hzero.symm)
      rw [hzero] at hcast
      exact_mod_cast hcast
    have hxz : x = zeroH := by
      refine uval_inj _ _ (by rw [hx.1]; simp [zeroH, numDigits]) hx.2 WF_zeroH.2 ?_
      rw [hu0, uval_zeroH]
    rw [hxz]
    decide
  · have hrender := render_small_pos hx hpos hs.2
    rw [hrender, parse_decChars]
    congr 1
    exact uval_inj _ _ (by rw [(mag_WF _).1, hx.1]) (mag_WF _).2 hx.2
      (mag_decChars_val (uval x) (uval_lt_M hx))

/-- Witness for C3 at the concrete value -42. -/
theorem C3_witness :
    HugeIntFromString (renderHuge (ofIntH (-42))) = some (ofIntH (-42)) :=
  C3_roundtrip_small (ofIntH (-42)) (by decide) (by decide)

/-- Claim C3 counterexample: rendering 1000 produces `"1,000"` (with the
grouping separator of HugeInt.cpp line 1066), which the string constructor
rejects, so `parse(render(1000))` fails instead of returning 1000. -/
theorem C3_counterexample :
    renderHuge (ofNatH 1000) = '1' :: ',' :: '0' :: '0' :: '0' :: []
      ∧ HugeIntFromString (renderHuge (ofNatH 1000)) = none := by
  refine ⟨by decide, by decide⟩

end HugeInt
